import Mathlib

/-!
Verification of the tilegram library (hexagonal tilegrams).

The Go source stores coordinates and weights as float64.  We model them
exactly: weights and caller-supplied coordinates are rationals, and the
coordinates produced by grid construction live in the ring Q[sqrt 3]
(hexagon rows are spaced r*sqrt(3) apart), represented as pairs of
rationals.  All model definitions mirror the corresponding Go functions
statement by statement; floating-point rounding is the only behaviour not
captured.
-/

namespace Tilegram

/-- An element a + b*sqrt(3) of the ring Q[sqrt 3].  All coordinates handled
by the hexagram code have this form, which keeps the model computable. -/
structure Q3 where
  a : ℚ
  b : ℚ
deriving DecidableEq, Repr

namespace Q3

/-- Embed a rational as an element of Q[sqrt 3]. -/
def ofQ (q : ℚ) : Q3 := ⟨q, 0⟩

instance : Zero Q3 := ⟨⟨0, 0⟩⟩

instance : Add Q3 := ⟨fun x y => ⟨x.a + y.a, x.b + y.b⟩⟩

instance : Neg Q3 := ⟨fun x => ⟨-x.a, -x.b⟩⟩

instance : Sub Q3 := ⟨fun x y => ⟨x.a - y.a, x.b - y.b⟩⟩

/-- Multiplication: (a + b s)(c + d s) = (ac + 3bd) + (ad + bc) s when
s^2 = 3. -/
instance : Mul Q3 := ⟨fun x y => ⟨x.a * y.a + 3 * x.b * y.b, x.a * y.b + x.b * y.a⟩⟩

/-- Decision procedure for 0 <= a + b*sqrt(3), by sign analysis and
squaring. -/
def nonneg (z : Q3) : Bool :=
  if 0 ≤ z.a then
    if 0 ≤ z.b then true
    else decide (3 * z.b ^ 2 ≤ z.a ^ 2)
  else
    if 0 ≤ z.b then decide (z.a ^ 2 ≤ 3 * z.b ^ 2)
    else false

instance : LE Q3 := ⟨fun x y => (y - x).nonneg = true⟩

instance : LT Q3 := ⟨fun x y => ¬ (y ≤ x)⟩

instance (x y : Q3) : Decidable (x ≤ y) :=
  inferInstanceAs (Decidable (_ = true))

instance (x y : Q3) : Decidable (x < y) :=
  inferInstanceAs (Decidable (¬ _))

/-- The real number denoted by an element of Q[sqrt 3]. -/
noncomputable def toReal (z : Q3) : ℝ := (z.a : ℝ) + (z.b : ℝ) * Real.sqrt 3

lemma sqrt3_sq : Real.sqrt 3 ^ 2 = 3 := Real.sq_sqrt (by norm_num)

lemma sqrt3_nonneg : (0 : ℝ) ≤ Real.sqrt 3 := Real.sqrt_nonneg 3

lemma toReal_ofQ (q : ℚ) : (ofQ q).toReal = (q : ℝ) := by
  simp [ofQ, toReal]

lemma toReal_zero : (0 : Q3).toReal = 0 := by
  show ((0:ℚ):ℝ) + ((0:ℚ):ℝ) * Real.sqrt 3 = 0
  norm_num

lemma toReal_add (x y : Q3) : (x + y).toReal = x.toReal + y.toReal := by
  show ((x.a + y.a : ℚ) : ℝ) + ((x.b + y.b : ℚ) : ℝ) * Real.sqrt 3 = _
  push_cast
  unfold toReal
  ring

lemma toReal_neg (x : Q3) : (-x).toReal = -x.toReal := by
  show ((-x.a : ℚ) : ℝ) + ((-x.b : ℚ) : ℝ) * Real.sqrt 3 = _
  push_cast
  unfold toReal
  ring

lemma toReal_sub (x y : Q3) : (x - y).toReal = x.toReal - y.toReal := by
  show ((x.a - y.a : ℚ) : ℝ) + ((x.b - y.b : ℚ) : ℝ) * Real.sqrt 3 = _
  push_cast
  unfold toReal
  ring

lemma toReal_mul (x y : Q3) : (x * y).toReal = x.toReal * y.toReal := by
  show ((x.a * y.a + 3 * x.b * y.b : ℚ) : ℝ)
      + ((x.a * y.b + x.b * y.a : ℚ) : ℝ) * Real.sqrt 3 = _
  push_cast
  unfold toReal
  linear_combination (-((x.b : ℝ) * (y.b : ℝ))) * sqrt3_sq

lemma nonneg_iff (z : Q3) : z.nonneg = true ↔ 0 ≤ z.toReal := by
  unfold nonneg toReal
  have hs : (0 : ℝ) ≤ Real.sqrt 3 := sqrt3_nonneg
  have hsq : Real.sqrt 3 ^ 2 = 3 := sqrt3_sq
  by_cases ha : 0 ≤ z.a
  · by_cases hb : 0 ≤ z.b
    · rw [if_pos ha, if_pos hb]
      have ha' : (0:ℝ) ≤ (z.a : ℝ) := by exact_mod_cast ha
      have hb' : (0:ℝ) ≤ (z.b : ℝ) := by exact_mod_cast hb
      simp only [true_iff]
      positivity
    · rw [if_pos ha, if_neg hb, decide_eq_true_eq]
      push_neg at hb
      have hb' : (z.b : ℝ) < 0 := by exact_mod_cast hb
      have ha' : (0:ℝ) ≤ (z.a : ℝ) := by exact_mod_cast ha
      constructor
      · intro h
        have h' : (3 : ℝ) * (z.b:ℝ) ^ 2 ≤ (z.a:ℝ) ^ 2 := by exact_mod_cast h
        nlinarith [h', mul_nonneg ha' hs, sq_nonneg ((z.a:ℝ) + (z.b:ℝ) * Real.sqrt 3)]
      · intro h
        have hbs : (0:ℝ) ≤ -(z.b:ℝ) * Real.sqrt 3 := mul_nonneg (by linarith) hs
        have h2 : -(z.b:ℝ) * Real.sqrt 3 ≤ (z.a:ℝ) := by linarith
        have h3 := mul_self_le_mul_self hbs h2
        have h4 : (3:ℝ) * (z.b:ℝ)^2 ≤ (z.a:ℝ)^2 := by nlinarith [h3, hsq]
        exact_mod_cast h4
  · by_cases hb : 0 ≤ z.b
    · rw [if_neg ha, if_pos hb, decide_eq_true_eq]
      push_neg at ha
      have ha' : (z.a : ℝ) < 0 := by exact_mod_cast ha
      have hb' : (0:ℝ) ≤ (z.b : ℝ) := by exact_mod_cast hb
      constructor
      · intro h
        have h' : (z.a:ℝ) ^ 2 ≤ (3 : ℝ) * (z.b:ℝ) ^ 2 := by exact_mod_cast h
        have hbs : (0:ℝ) ≤ (z.b:ℝ) * Real.sqrt 3 := mul_nonneg hb' hs
        nlinarith [h', hbs, hsq]
      · intro h
        have hna : (0:ℝ) ≤ -(z.a:ℝ) := by linarith
        have h2 : -(z.a:ℝ) ≤ (z.b:ℝ) * Real.sqrt 3 := by linarith
        have h3 := mul_self_le_mul_self hna h2
        have h4 : (z.a:ℝ)^2 ≤ (3:ℝ) * (z.b:ℝ)^2 := by nlinarith [h3, hsq]
        exact_mod_cast h4
    · rw [if_neg ha, if_neg hb]
      push_neg at ha hb
      have ha' : (z.a : ℝ) < 0 := by exact_mod_cast ha
      have hb' : (z.b : ℝ) < 0 := by exact_mod_cast hb
      constructor
      · intro h
        exact absurd h (by simp)
      · intro h
        have : (z.b:ℝ) * Real.sqrt 3 ≤ 0 :=
          mul_nonpos_of_nonpos_of_nonneg (le_of_lt hb') hs
        linarith

lemma le_iff_toReal (x y : Q3) : x ≤ y ↔ x.toReal ≤ y.toReal := by
  show (y - x).nonneg = true ↔ _
  rw [nonneg_iff, toReal_sub]
  constructor
  · intro h; linarith
  · intro h; linarith

lemma lt_iff_toReal (x y : Q3) : x < y ↔ x.toReal < y.toReal := by
  show ¬ (y ≤ x) ↔ _
  rw [le_iff_toReal]
  exact not_le

end Q3

/-- A caller-supplied data record (the Grouper capability implemented by
Data in data.go): centroid, bounding box, weight and group label. -/
structure Rec where
  cx : ℚ
  cy : ℚ
  bMinX : ℚ
  bMinY : ℚ
  bMaxX : ℚ
  bMaxY : ℚ
  weight : ℚ
  group : String
deriving DecidableEq, Repr

/-- An individual hexagonal tile (Hex): center point, assigned records,
index and radius. -/
structure Hexa where
  px : Q3
  py : Q3
  data : List Rec
  idx : Nat
  r : ℚ
deriving DecidableEq, Repr

/-- Hex.Weight: the sum of the weights of the records assigned to a tile. -/
def Hexa.wgt (h : Hexa) : ℚ := (h.data.map Rec.weight).sum

/-- Accumulate a weight into an association list of per-group totals,
mirroring the Go map groupWeights (keys kept in first-occurrence order;
the per-group totals are order-independent). -/
def accumGroup : List (String × ℚ) → String → ℚ → List (String × ℚ)
  | [], g, w => [(g, w)]
  | (g', w') :: rest, g, w =>
      if g' = g then (g', w' + w) :: rest else (g', w') :: accumGroup rest g w

/-- Hex.Group: the group with the most weight among the tile's records,
"" when the tile has no records.  The Go code folds over an unordered map
with a strict comparison starting from ("", 0); the model folds in
first-occurrence order, which matters only for ties between distinct
groups (a documented non-determinism of the source). -/
def Hexa.grp (h : Hexa) : String :=
  let gw := h.data.foldl (fun acc d => accumGroup acc d.group d.weight) []
  (gw.foldl (fun best p => if best.2 < p.2 then p else best) ("", 0)).1

/-- Aggregate bounding box of the input records (geom.NewBounds plus
Extend over every record).  The fields are minX, minY, maxX, maxY. -/
structure BoxQ where
  minX : ℚ
  minY : ℚ
  maxX : ℚ
  maxY : ℚ
deriving DecidableEq, Repr

/-- dataBounds models the bbox accumulation in NewHexagram; none for an
empty record list, where Go keeps the inverted infinite NewBounds and the
candidate loops below run zero iterations. -/
def dataBounds : List Rec → Option BoxQ
  | [] => none
  | d :: rest =>
      some (rest.foldl
        (fun b d' =>
          ⟨min b.minX d'.bMinX, min b.minY d'.bMinY,
           max b.maxX d'.bMaxX, max b.maxY d'.bMaxY⟩)
        ⟨d.bMinX, d.bMinY, d.bMaxX, d.bMaxY⟩)

/-- The closed-box intersection test of the rtree between a record's
bounding box and the degenerate bounding box of a candidate point
(dataIndex.SearchIntersect(p.Bounds()) being nonempty for this record). -/
def recIntersectsPoint (d : Rec) (x y : Q3) : Bool :=
  decide (Q3.ofQ d.bMinX ≤ x) && decide (x ≤ Q3.ofQ d.bMaxX) &&
  decide (Q3.ofQ d.bMinY ≤ y) && decide (y ≤ Q3.ofQ d.bMaxY)

/-- The values taken by the Go loop for v := start; v <= stop; v += step.
The recursion carries explicit fuel; callers pass fuel strictly larger
than the true iteration count (loopVals_fuel_elim below shows any such
fuel yields the same list). -/
def loopVals (stop step : Q3) : Nat → Q3 → List Q3
  | 0, _ => []
  | n + 1, v => if v ≤ stop then v :: loopVals stop step n (v + step) else []

/-- Fuel bound for loopVals: at least (stop - start)/step + 1 iterations
whenever the step is at least r, using sqrt(3) <= 2 to bound the
irrational part. -/
def fuelFor (start stop : Q3) (r : ℚ) : Nat :=
  (⌈((stop.a - start.a) + 2 * |stop.b - start.b|) / r⌉).toNat + 1

lemma loopVals_fuel_elim (stop step : Q3) :
    ∀ (n : Nat) (v : Q3), stop.toReal < v.toReal + n * step.toReal →
    loopVals stop step n v = loopVals stop step (n + 1) v := by
  intro n
  induction n with
  | zero =>
      intro v hv
      simp only [Nat.cast_zero, zero_mul, add_zero] at hv
      have : ¬ (v ≤ stop) := by
        rw [Q3.le_iff_toReal]
        linarith
      simp [loopVals, this]
  | succ m ih =>
      intro v hv
      show (if v ≤ stop then v :: loopVals stop step m (v + step) else []) =
           (if v ≤ stop then v :: loopVals stop step (m + 1) (v + step) else [])
      by_cases h : v ≤ stop
      · rw [if_pos h, if_pos h]
        have : stop.toReal < (v + step).toReal + m * step.toReal := by
          rw [Q3.toReal_add]
          push_cast at hv ⊢
          linarith
        rw [ih (v + step) this]
      · rw [if_neg h, if_neg h]

lemma sqrt3_le_two : Real.sqrt 3 ≤ 2 := by
  have h4 : Real.sqrt 4 = 2 := by
    rw [show (4:ℝ) = 2 ^ 2 by norm_num, Real.sqrt_sq (by norm_num)]
  calc Real.sqrt 3 ≤ Real.sqrt 4 := Real.sqrt_le_sqrt (by norm_num)
    _ = 2 := h4

lemma fuelFor_sufficient (start stop : Q3) (r : ℚ) (step : Q3)
    (hr : 0 < r) (hstep : (r : ℝ) ≤ step.toReal) :
    stop.toReal < start.toReal + (fuelFor start stop r) * step.toReal := by
  have hs2 := sqrt3_le_two
  have hs0 := Q3.sqrt3_nonneg
  set q : ℚ := ((stop.a - start.a) + 2 * |stop.b - start.b|) / r with hq
  have hfl : (q : ℝ) + 1 ≤ ((fuelFor start stop r : Nat) : ℝ) := by
    have h1 : (⌈q⌉.toNat : ℤ) ≥ ⌈q⌉ := Int.self_le_toNat ⌈q⌉
    have h2 : (q : ℝ) ≤ ((⌈q⌉ : ℤ) : ℝ) := by exact_mod_cast Int.le_ceil q
    have h3 : ((⌈q⌉ : ℤ) : ℝ) ≤ ((⌈q⌉.toNat : ℤ) : ℝ) := by exact_mod_cast h1
    have : (fuelFor start stop r : ℝ) = ((⌈q⌉.toNat : ℤ) : ℝ) + 1 := by
      unfold fuelFor
      push_cast
      norm_num
    rw [this]
    linarith
  have hd : stop.toReal - start.toReal ≤ ((stop.a - start.a : ℚ) : ℝ)
      + 2 * ((|stop.b - start.b| : ℚ) : ℝ) := by
    unfold Q3.toReal
    have hb : ((stop.b : ℝ) - (start.b : ℝ)) * Real.sqrt 3
        ≤ 2 * ((|stop.b - start.b| : ℚ) : ℝ) := by
      have habs : (stop.b : ℝ) - (start.b : ℝ) ≤ ((|stop.b - start.b| : ℚ) : ℝ) := by
        have := le_abs_self (stop.b - start.b)
        push_cast
        exact_mod_cast this
      have habs0 : (0:ℝ) ≤ ((|stop.b - start.b| : ℚ) : ℝ) := by positivity
      nlinarith [mul_le_mul_of_nonneg_left hs2 habs0]
    push_cast
    push_cast at hb
    nlinarith [hb]
  have hqr : (q : ℝ) * (r : ℝ) = ((stop.a - start.a : ℚ) : ℝ)
      + 2 * ((|stop.b - start.b| : ℚ) : ℝ) := by
    rw [hq]
    push_cast
    field_simp
  have hr' : (0:ℝ) < (r : ℝ) := by exact_mod_cast hr
  have hfuel0 : (0:ℝ) ≤ (fuelFor start stop r : ℝ) := by positivity
  have key : (q : ℝ) * (r : ℝ) + (r : ℝ) ≤ (fuelFor start stop r : ℝ) * step.toReal := by
    have h1 : ((q : ℝ) + 1) * (r : ℝ) ≤ (fuelFor start stop r : ℝ) * (r : ℝ) :=
      mul_le_mul_of_nonneg_right hfl (le_of_lt hr')
    have h2 : (fuelFor start stop r : ℝ) * (r : ℝ)
        ≤ (fuelFor start stop r : ℝ) * step.toReal :=
      mul_le_mul_of_nonneg_left hstep hfuel0
    nlinarith [h1, h2]
  nlinarith [hd, hqr, key, hr']

/-- The candidate hexagon centers generated by the two offset passes of
NewHexagram: horizontal spacing dx = 3r, vertical spacing dy = r*sqrt(3),
pass offsets (0, 0) and (-1.5r, -r). -/
def candCenters (bb : BoxQ) (r : ℚ) : List (Q3 × Q3) :=
  let dx : Q3 := ⟨3 * r, 0⟩
  let dy : Q3 := ⟨0, r⟩
  let stopX := Q3.ofQ bb.maxX
  let stopY := Q3.ofQ bb.maxY
  let pass : Q3 → Q3 → List (Q3 × Q3) := fun xmin ymin =>
    (loopVals stopX dx (fuelFor xmin stopX r) xmin).flatMap (fun x =>
      (loopVals stopY dy (fuelFor ymin stopY r) ymin).map (fun y => (x, y)))
  pass (Q3.ofQ bb.minX) (Q3.ofQ bb.minY) ++
    pass (Q3.ofQ (bb.minX - 3/2 * r)) (Q3.ofQ (bb.minY - r))

/-- The tiles built by NewHexagram before record assignment: candidate
centers whose point bounding box intersects at least one record bounding
box, indexed densely in order of creation, with empty record lists. -/
def hexesFromData (data : List Rec) (r : ℚ) : List Hexa :=
  match dataBounds data with
  | none => []
  | some bb =>
      let keep := (candCenters bb r).filter
        (fun p => data.any (fun d => recIntersectsPoint d p.1 p.2))
      keep.enum.map (fun ip => ⟨ip.2.1, ip.2.2, [], ip.1, r⟩)

/-- Squared Euclidean distance between two points, exact in Q[sqrt 3]. -/
def sqDistP (p q : Q3 × Q3) : Q3 :=
  (p.1 - q.1) * (p.1 - q.1) + (p.2 - q.2) * (p.2 - q.2)

/-- Squared distance from a point to the center of the tile at position
j (0 for an out-of-range position, which the callers never hit). -/
def hexDist (c : Q3 × Q3) (hs : List Hexa) (j : Nat) : Q3 :=
  match hs.get? j with
  | some h => sqDistP c (h.px, h.py)
  | none => 0

/-- Index of the tile whose center is nearest to the point c: the model
of the rtree NearestNeighbor contract, a linear argmin over the tile
centers where the first minimum wins (a deterministic tie-break, as the
spec requires of the spatial index). -/
def nearestIdx (c : Q3 × Q3) (hs : List Hexa) : Nat :=
  (List.range hs.length).foldl
    (fun best j => if hexDist c hs j < hexDist c hs best then j else best) 0

/-- Hexagram.add: append the record to the nearest tile's record list. -/
def addRec (hs : List Hexa) (d : Rec) : List Hexa :=
  let k := nearestIdx (Q3.ofQ d.cx, Q3.ofQ d.cy) hs
  match hs.get? k with
  | none => hs
  | some h => hs.set k { h with data := h.data ++ [d] }

/-- The record-assignment loop at the end of NewHexagram. -/
def assignRecs (hs : List Hexa) (ds : List Rec) : List Hexa := ds.foldl addRec hs

/-- A hexagram: its tiles and the common hexagon radius (the spatial
index is modeled by the tile list itself). -/
structure Hexagram where
  hexes : List Hexa
  r : ℚ
deriving DecidableEq, Repr

/-- NewHexagram: build the tiles, fail when none was produced, otherwise
assign every record to its nearest tile. -/
def newHexagram (data : List Rec) (r : ℚ) : Except String Hexagram :=
  let built := hexesFromData data r
  if built.isEmpty then
    Except.error "tilegram: no hexagons of given radius fit within given bounds"
  else
    Except.ok ⟨assignRecs built data, r⟩

/-- The comparator hexSort.Less from distribute.go: i sorts before j when
i's group matches the destination's dominant group and j's does not,
otherwise when i's weight is lower.  It is not a strict weak order: for a
non-matching i and matching j with smaller i-weight, both Less(i,j) and
Less(j,i) hold. -/
def lessFor (n : Hexa) (x y : Rec) : Bool :=
  if x.group = n.grp ∧ y.group ≠ n.grp then true
  else decide (x.weight < y.weight)

/-- One insertion step of Go's insertionSort: x bubbles left through the
reversed sorted prefix while Less(x, previous element). -/
def bubbleIns (less : Rec → Rec → Bool) (x : Rec) : List Rec → List Rec
  | [] => [x]
  | y :: ys => if less x y then y :: bubbleIns less x ys else x :: y :: ys

/-- Go's sort.Sort as executed on the record lists of this repository:
for fewer than 12 elements sort.Sort runs exactly this insertion sort
(the accumulator is the reversed sorted prefix).  Because hexSort.Less is
not a strict weak order, larger inputs are sorted by quicksort into an
order that is likewise only algorithm-defined; the model fixes the
insertion-sort order. -/
def goSort (less : Rec → Rec → Bool) (l : List Rec) : List Rec :=
  (l.foldl (fun acc x => bubbleIns less x acc) []).reverse

/-- The number of records Hex.transfer moves: the loop adds records one
at a time and breaks as soon as the running weight reaches the amount, so
at least one record moves whenever any exists, and all of them move when
the total stays below the amount. -/
def moveCount (amount : ℚ) : ℚ → List Rec → Nat
  | _, [] => 0
  | s, d :: rest =>
      if amount ≤ s + d.weight then 1 else 1 + moveCount amount (s + d.weight) rest

/-- Hex.transfer: sort the source's records by transfer priority for the
destination, append the moved prefix to the destination and drop it from
the source. -/
def transferHex (h n : Hexa) (amount : ℚ) : Hexa × Hexa :=
  let sorted := goSort (lessFor n) h.data
  let k := moveCount amount 0 sorted
  ({ h with data := sorted.drop k }, { n with data := n.data ++ sorted.take k })

/-- Transfer between the tiles at positions i and j of the tile list
(identity when an index is out of range, which cannot happen in the
repository).  For i = j the Go slice aliasing appends the moved prefix to
the very slice it was sorted in and then deletes the first k elements,
leaving the sorted list rotated; Distribute never performs such a
self-transfer because it requires a positive weight difference. -/
def transferAt (hs : List Hexa) (i j : Nat) (amount : ℚ) : List Hexa :=
  match hs.get? i, hs.get? j with
  | some hi, some hj =>
      if i = j then
        let sorted := goSort (lessFor hi) hi.data
        let k := moveCount amount 0 sorted
        hs.set i { hi with data := sorted.drop k ++ sorted.take k }
      else
        let p := transferHex hi hj amount
        (hs.set i p.1).set j p.2
  | _, _ => hs

/-- The sum over all tiles of the weights of their assigned records. -/
def totalWgt (hs : List Hexa) : ℚ := (hs.map Hexa.wgt).sum

/-- Apply a sequence of transfer operations (source, destination, amount). -/
def applyOps (hs : List Hexa) (ops : List (Nat × Nat × ℚ)) : List Hexa :=
  ops.foldl (fun s op => transferAt s op.1 op.2.1 op.2.2) hs

/-- Hexagram.rangeRatio: the range of the tile weights divided by their
mean, together with the mean.  Go folds math.Max/math.Min from infinite
sentinels, which on the nonempty tile lists guaranteed by construction
equals folding from the first weight; the model returns (0, 0) on an
empty list and uses the rational junk value for division by a zero mean
where Go would produce NaN or Inf. -/
def rangeRat (hs : List Hexa) : ℚ × ℚ :=
  match hs.map Hexa.wgt with
  | [] => (0, 0)
  | w :: ws =>
      let mx := ws.foldl max w
      let mn := ws.foldl min w
      let mean := (w + ws.sum) / (hs.length : ℚ)
      ((mx - mn) / mean, mean)

/-- Hex.Bounds from the source.  Go evaluates the untyped constant
expression 3/2 by integer division, so 3/2*h.r is 1*h.r: the half-width
is r (which is exactly the half-width of the hexagon produced by
Hex.Geom) and the half-height is r/2*sqrt(3). -/
structure BoxQ3 where
  minX : Q3
  minY : Q3
  maxX : Q3
  maxY : Q3
deriving DecidableEq, Repr

def hexBounds (h : Hexa) : BoxQ3 :=
  { maxX := h.px + Q3.ofQ (((3 / 2 : ℤ) : ℚ) * h.r)
    maxY := h.py + ⟨0, h.r / 2⟩
    minX := h.px - Q3.ofQ (((3 / 2 : ℤ) : ℚ) * h.r)
    minY := h.py - ⟨0, h.r / 2⟩ }

/-- Closed-box intersection (the rtree SearchIntersect test). -/
def boxIntersect (b1 b2 : BoxQ3) : Bool :=
  decide (b1.minX ≤ b2.maxX) && decide (b2.minX ≤ b1.maxX) &&
    decide (b1.minY ≤ b2.maxY) && decide (b2.minY ≤ b1.maxY)

/-- Hexagram.neighbors: indices of the tiles whose stored bounds intersect
the source tile's bounds expanded by r/2 on every side. -/
def neighborIdxs (hs : List Hexa) (hh : Hexa) : List Nat :=
  let b := hexBounds hh
  let eb : BoxQ3 :=
    { maxX := b.maxX + Q3.ofQ (hh.r / 2), maxY := b.maxY + Q3.ofQ (hh.r / 2),
      minX := b.minX - Q3.ofQ (hh.r / 2), minY := b.minY - Q3.ofQ (hh.r / 2) }
  (hs.enum.filter (fun p => boxIntersect (hexBounds p.2) eb)).map (fun p => p.1)

/-- One outer iteration of Distribute: every tile currently heavier than
the mean recorded at the start of the iteration pushes half its live
surplus over each lighter neighbor, in tile order. -/
def distributeStep (hg : Hexagram) (mean : ℚ) : Hexagram :=
  let hexes := (List.range hg.hexes.length).foldl (fun cur i =>
    match cur.get? i with
    | none => cur
    | some hh =>
        if mean < hh.wgt then
          (neighborIdxs cur hh).foldl (fun cur2 j =>
            match cur2.get? i, cur2.get? j with
            | some hi, some hj =>
                let wdiff := hi.wgt - hj.wgt
                if 0 < wdiff then transferAt cur2 i j (wdiff / 2) else cur2
            | _, _ => cur2) cur
        else cur) hg.hexes
  { hg with hexes := hexes }

/-- Hexagram.Distribute, with explicit fuel standing in for the unbounded
Go loop; none models running out of fuel before the ratio test passes.
The ratio test is the only exit of the loop. -/
def distribute (ρ : ℚ) : Nat → Hexagram → Option Hexagram
  | 0, _ => none
  | fuel + 1, hg =>
      let rm := rangeRat hg.hexes
      if rm.1 ≤ ρ then some hg
      else distribute ρ fuel (distributeStep hg rm.2)

/-- Points handled by the hull builder; every hull input analysed below
has rational coordinates. -/
abbrev Pt := ℚ × ℚ

/-- Squared Euclidean distance between two points. -/
def dist2 (p q : Pt) : ℚ := (p.1 - q.1) ^ 2 + (p.2 - q.2) ^ 2

/-- The snapping test math.Hypot(p-q) < tolerance, squared to stay inside
the rationals: hypot < tol holds iff 0 <= tol and dist2 < tol^2 (for a
negative tolerance the Go comparison is always false because hypot is
nonnegative). -/
def nearTol (tol : ℚ) (p q : Pt) : Bool :=
  decide (0 ≤ tol) && decide (dist2 p q < tol ^ 2)

/-- The hull edge graph map[Point]map[Point]empty of hull.go, modeled as
an association list of keys with their out-sets so that iteration is
deterministic.  Go's map iteration order is randomized; each theorem
below either does not depend on the iteration order or says so. -/
abbrev HullGraph := List (Pt × List Pt)

/-- The out-set of a point (indexing a missing key gives the empty set,
like indexing a nil Go map). -/
def outsOf (g : HullGraph) (p : Pt) : List Pt :=
  match g.find? (fun e => e.1 == p) with
  | some e => e.2
  | none => []

/-- Membership test for a directed edge, as in the Go comma-ok map reads. -/
def memEdge (g : HullGraph) (a b : Pt) : Bool := (outsOf g a).contains b

/-- delete(h.graph[a], b) followed by delete(h.graph, a) when the out-set
becomes empty. -/
def deleteEdge (g : HullGraph) (a b : Pt) : HullGraph :=
  g.filterMap (fun e =>
    if e.1 = a then
      let outs := e.2.erase b
      if outs.isEmpty then none else some (a, outs)
    else some e)

/-- Insert the edge a -> b (the key is appended when new; the direct and
reverse duplicate checks in addToGraph guarantee b is not already in the
out-set of a when this runs). -/
def addEdge (g : HullGraph) (a b : Pt) : HullGraph :=
  if (g.find? (fun e => e.1 == a)).isSome then
    g.map (fun e => if e.1 = a then (e.1, e.2 ++ [b]) else e)
  else g ++ [(a, [b])]

/-- The inner snapping loop of addToGraph over one key's out-set: Go
breaks out of the whole out-set as soon as it meets a point equal to
either current endpoint, otherwise snaps each endpoint to any out-point
within tolerance. -/
def snapInner (tol : ℚ) : List Pt → Pt × Pt → Pt × Pt
  | [], seg => seg
  | p2 :: rest, seg =>
      if seg.1 = p2 ∨ seg.2 = p2 then seg
      else
        snapInner tol rest
          (if nearTol tol p2 seg.1 then p2 else seg.1,
           if nearTol tol p2 seg.2 then p2 else seg.2)

/-- The snapping pass of addToGraph: fold over all graph entries; for an
entry whose key differs from both current endpoints, snap each endpoint
to the key when within tolerance, then run the inner loop over the
entry's out-set. -/
def snapSeg (tol : ℚ) (g : HullGraph) (seg : Pt × Pt) : Pt × Pt :=
  g.foldl (fun sg e =>
    snapInner tol e.2
      (if sg.1 ≠ e.1 ∧ sg.2 ≠ e.1 then
        (if nearTol tol e.1 sg.1 then e.1 else sg.1,
         if nearTol tol e.1 sg.2 then e.1 else sg.2)
      else sg)) seg

/-- hull.addToGraph: discard a segment whose endpoints are equal (tested
before snapping), snap the endpoints against the existing graph points,
then cancel an existing reverse edge, else cancel an existing identical
edge, else insert the edge. -/
def addToGraph (tol : ℚ) (g : HullGraph) (seg : Pt × Pt) : HullGraph :=
  if seg.1 = seg.2 then g
  else
    let s := snapSeg tol g seg
    if memEdge g s.2 s.1 then deleteEdge g s.2 s.1
    else if memEdge g s.1 s.2 then deleteEdge g s.1 s.2
    else addEdge g s.1 s.2

/-- Insert the edges of one ring: all consecutive pairs, plus the closing
edge from the last point to the first when the ring is not already
closed. -/
def addRing (tol : ℚ) (g : HullGraph) (rg : List Pt) : HullGraph :=
  let g1 := (rg.zip rg.tail).foldl (fun g pr => addToGraph tol g pr) g
  match rg.head?, rg.getLast? with
  | some h, some l => if h = l then g1 else addToGraph tol g1 (l, h)
  | _, _ => g1

/-- The graph-building phase of newHull over a list of polygons, each a
list of rings (Polygons() on a geom.Polygon yields the polygon itself). -/
def hullGraphOf (tol : ℚ) (polys : List (List (List Pt))) : HullGraph :=
  polys.foldl (fun g poly => poly.foldl (fun g' rg => addRing tol g' rg) g) []

/-- hull.ring: follow the unique outgoing edge from the current point,
deleting edges as they are walked, until the walk returns to its start;
none when a visited point does not have exactly one outgoing edge (where
the Go code panics) or when the fuel runs out. -/
def ringWalk : Nat → HullGraph → Pt → Pt → List Pt → Option (List Pt × HullGraph)
  | 0, _, _, _, _ => none
  | fuel + 1, g, start, cur, acc =>
      match outsOf g cur with
      | [pp] =>
          let g' := deleteEdge g cur pp
          if pp = start then some (acc ++ [pp], g')
          else ringWalk fuel g' start pp (acc ++ [pp])
      | _ => none

/-- hull.Polygon: extract rings, each starting at the first remaining
key, until the graph is empty. -/
def polyExtract : Nat → HullGraph → Option (List (List Pt))
  | 0, g => if g.isEmpty then some [] else none
  | fuel + 1, g =>
      match g with
      | [] => some []
      | (p, _) :: _ =>
          match ringWalk (fuel + 1) g p p [p] with
          | none => none
          | some (rg, g') =>
              match polyExtract fuel g' with
              | none => none
              | some rest => some (rg :: rest)

/-- Total number of directed edges in the graph (used only to size the
fuel of the extraction loops). -/
def edgeCount (g : HullGraph) : Nat := (g.map (fun e => e.2.length)).sum

/-- newHull: build the edge graph from the polygons and extract all
rings.  The fuel exceeds any possible number of steps; none therefore
models the panic of hull.ring on malformed graphs. -/
def newHull (tol : ℚ) (polys : List (List (List Pt))) : Option (List (List Pt)) :=
  let g := hullGraphOf tol polys
  polyExtract (edgeCount g + g.length + 2) g

/-- Append a value to the entry of a key in an association list (keys in
first-occurrence order where Go uses an unordered map). -/
def appendAssoc {γ : Type} : List (String × List γ) → String → γ → List (String × List γ)
  | [], k, v => [(k, [v])]
  | e :: rest, k, v =>
      if e.1 = k then (e.1, e.2 ++ [v]) :: rest else e :: appendAssoc rest k v

/-- The grouping loop of GroupGeom: append each tile's geometry (an
arbitrary geometry function standing for Hex.Geom, whose value is
irrelevant to the grouping) to the entry of the tile's dominant group.
The per-group hull merge applied afterwards is newHull above. -/
def groupPolys {γ : Type} (geomOf : Hexa → γ) (hs : List Hexa) :
    List (String × List γ) :=
  hs.foldl (fun acc hh => appendAssoc acc hh.grp (geomOf hh)) []

/-- Read a group's accumulated geometry list. -/
def lookupGroup {γ : Type} (l : List (String × List γ)) (k : String) : List γ :=
  match l.find? (fun e => e.1 == k) with
  | some e => e.2
  | none => []

/-- The x-coordinate of vertex i of Hex.Geom: center plus
r*cos(pi*2/6*i). -/
noncomputable def hexVertexX (h : Hexa) (i : ℕ) : ℝ :=
  h.px.toReal + (h.r : ℝ) * Real.cos (Real.pi * 2 / 6 * (i : ℝ))

/-- The y-coordinate of vertex i of Hex.Geom: center plus
r*sin(pi*2/6*i). -/
noncomputable def hexVertexY (h : Hexa) (i : ℕ) : ℝ :=
  h.py.toReal + (h.r : ℝ) * Real.sin (Real.pi * 2 / 6 * (i : ℝ))

lemma hexBounds_maxX_toReal (h : Hexa) :
    (hexBounds h).maxX.toReal = h.px.toReal + h.r := by
  show (h.px + Q3.ofQ (((3 / 2 : ℤ) : ℚ) * h.r)).toReal = _
  rw [Q3.toReal_add, Q3.toReal_ofQ]
  norm_num

lemma hexBounds_minX_toReal (h : Hexa) :
    (hexBounds h).minX.toReal = h.px.toReal - h.r := by
  show (h.px - Q3.ofQ (((3 / 2 : ℤ) : ℚ) * h.r)).toReal = _
  rw [Q3.toReal_sub, Q3.toReal_ofQ]
  norm_num

lemma hexBounds_maxY_toReal (h : Hexa) :
    (hexBounds h).maxY.toReal = h.py.toReal + (h.r : ℝ) / 2 * Real.sqrt 3 := by
  show (h.py + (⟨0, h.r / 2⟩ : Q3)).toReal = _
  rw [Q3.toReal_add]
  unfold Q3.toReal
  push_cast
  ring

lemma hexBounds_minY_toReal (h : Hexa) :
    (hexBounds h).minY.toReal = h.py.toReal - (h.r : ℝ) / 2 * Real.sqrt 3 := by
  show (h.py - (⟨0, h.r / 2⟩ : Q3)).toReal = _
  rw [Q3.toReal_sub]
  unfold Q3.toReal
  push_cast
  ring

/-- C2, counterexample.  The claim asserts Hex.Bounds has half-width 1.5r;
at the hexagon centered at the origin with r = 1 the code's Max.X equals
1, not 1.5, because the Go constant expression 3/2 is evaluated by
integer division. -/
theorem C2_counterexample :
    (hexBounds { px := ⟨0, 0⟩, py := ⟨0, 0⟩, data := [], idx := 0, r := 1 }).maxX.toReal
      ≠ (0 : ℝ) + 3 / 2 * 1 := by
  rw [hexBounds_maxX_toReal]
  unfold Q3.toReal
  norm_num

/-- C2, amended.  Hex.Bounds returns Max = (x + r, y + r*sqrt(3)/2) and
Min = (x - r, y - r*sqrt(3)/2): half-width r, not 1.5r, and half-height
r*sqrt(3)/2 as claimed.  This box is exactly large enough to contain the
hexagon of Hex.Geom: vertex 0 attains Max.X, vertex 3 attains Min.X,
vertex 1 attains Max.Y, vertex 5 attains Min.Y, and for a nonnegative
radius every vertex lies inside the box. -/
theorem C2_hex_bounds (h : Hexa) :
    (hexBounds h).maxX.toReal = h.px.toReal + h.r ∧
    (hexBounds h).minX.toReal = h.px.toReal - h.r ∧
    (hexBounds h).maxY.toReal = h.py.toReal + (h.r : ℝ) / 2 * Real.sqrt 3 ∧
    (hexBounds h).minY.toReal = h.py.toReal - (h.r : ℝ) / 2 * Real.sqrt 3 ∧
    hexVertexX h 0 = (hexBounds h).maxX.toReal ∧
    hexVertexX h 3 = (hexBounds h).minX.toReal ∧
    hexVertexY h 1 = (hexBounds h).maxY.toReal ∧
    hexVertexY h 5 = (hexBounds h).minY.toReal ∧
    (0 ≤ h.r → ∀ i, i < 6 →
      (hexBounds h).minX.toReal ≤ hexVertexX h i ∧
      hexVertexX h i ≤ (hexBounds h).maxX.toReal ∧
      (hexBounds h).minY.toReal ≤ hexVertexY h i ∧
      hexVertexY h i ≤ (hexBounds h).maxY.toReal) := by
  have a0 : Real.pi * 2 / 6 * ((0 : ℕ) : ℝ) = 0 := by push_cast; ring
  have a1 : Real.pi * 2 / 6 * ((1 : ℕ) : ℝ) = Real.pi / 3 := by push_cast; ring
  have a2 : Real.pi * 2 / 6 * ((2 : ℕ) : ℝ) = Real.pi - Real.pi / 3 := by push_cast; ring
  have a3 : Real.pi * 2 / 6 * ((3 : ℕ) : ℝ) = Real.pi := by push_cast; ring
  have a4 : Real.pi * 2 / 6 * ((4 : ℕ) : ℝ) = 2 * Real.pi - (Real.pi - Real.pi / 3) := by
    push_cast; ring
  have a5 : Real.pi * 2 / 6 * ((5 : ℕ) : ℝ) = 2 * Real.pi - Real.pi / 3 := by
    push_cast; ring
  have c0 : Real.cos (Real.pi * 2 / 6 * ((0 : ℕ) : ℝ)) = 1 := by rw [a0, Real.cos_zero]
  have c1 : Real.cos (Real.pi * 2 / 6 * ((1 : ℕ) : ℝ)) = 1 / 2 := by
    rw [a1, Real.cos_pi_div_three]
  have c2 : Real.cos (Real.pi * 2 / 6 * ((2 : ℕ) : ℝ)) = -(1 / 2) := by
    rw [a2, Real.cos_pi_sub, Real.cos_pi_div_three]
  have c3 : Real.cos (Real.pi * 2 / 6 * ((3 : ℕ) : ℝ)) = -1 := by rw [a3, Real.cos_pi]
  have c4 : Real.cos (Real.pi * 2 / 6 * ((4 : ℕ) : ℝ)) = -(1 / 2) := by
    rw [a4, Real.cos_two_pi_sub, Real.cos_pi_sub, Real.cos_pi_div_three]
  have c5 : Real.cos (Real.pi * 2 / 6 * ((5 : ℕ) : ℝ)) = 1 / 2 := by
    rw [a5, Real.cos_two_pi_sub, Real.cos_pi_div_three]
  have s0 : Real.sin (Real.pi * 2 / 6 * ((0 : ℕ) : ℝ)) = 0 := by rw [a0, Real.sin_zero]
  have s1 : Real.sin (Real.pi * 2 / 6 * ((1 : ℕ) : ℝ)) = Real.sqrt 3 / 2 := by
    rw [a1, Real.sin_pi_div_three]
  have s2 : Real.sin (Real.pi * 2 / 6 * ((2 : ℕ) : ℝ)) = Real.sqrt 3 / 2 := by
    rw [a2, Real.sin_pi_sub, Real.sin_pi_div_three]
  have s3 : Real.sin (Real.pi * 2 / 6 * ((3 : ℕ) : ℝ)) = 0 := by rw [a3, Real.sin_pi]
  have s4 : Real.sin (Real.pi * 2 / 6 * ((4 : ℕ) : ℝ)) = -(Real.sqrt 3 / 2) := by
    rw [a4, Real.sin_two_pi_sub, Real.sin_pi_sub, Real.sin_pi_div_three]
  have s5 : Real.sin (Real.pi * 2 / 6 * ((5 : ℕ) : ℝ)) = -(Real.sqrt 3 / 2) := by
    rw [a5, Real.sin_two_pi_sub, Real.sin_pi_div_three]
  have hs3 : (0 : ℝ) ≤ Real.sqrt 3 := Q3.sqrt3_nonneg
  refine ⟨hexBounds_maxX_toReal h, hexBounds_minX_toReal h, hexBounds_maxY_toReal h,
    hexBounds_minY_toReal h, ?_, ?_, ?_, ?_, ?_⟩
  · rw [hexBounds_maxX_toReal]
    unfold hexVertexX
    rw [c0]
    ring
  · rw [hexBounds_minX_toReal]
    unfold hexVertexX
    rw [c3]
    ring
  · rw [hexBounds_maxY_toReal]
    unfold hexVertexY
    rw [s1]
    ring
  · rw [hexBounds_minY_toReal]
    unfold hexVertexY
    rw [s5]
    ring
  · intro hr i hi
    have hr' : (0 : ℝ) ≤ (h.r : ℝ) := by exact_mod_cast hr
    have hu0 : (0 : ℝ) ≤ (h.r : ℝ) * Real.sqrt 3 := mul_nonneg hr' hs3
    have e1 : (h.r : ℝ) / 2 * Real.sqrt 3 = (h.r : ℝ) * Real.sqrt 3 / 2 := by ring
    have e2 : (h.r : ℝ) * (Real.sqrt 3 / 2) = (h.r : ℝ) * Real.sqrt 3 / 2 := by ring
    have e3 : (h.r : ℝ) * -(Real.sqrt 3 / 2) = -((h.r : ℝ) * Real.sqrt 3 / 2) := by ring
    rw [hexBounds_maxX_toReal, hexBounds_minX_toReal, hexBounds_maxY_toReal,
      hexBounds_minY_toReal, e1]
    unfold hexVertexX hexVertexY
    interval_cases i
    · rw [c0, s0]
      refine ⟨by linarith, by linarith, by linarith, by linarith⟩
    · rw [c1, s1, e2]
      refine ⟨by linarith, by linarith, by linarith, by linarith⟩
    · rw [c2, s2, e2]
      refine ⟨by linarith, by linarith, by linarith, by linarith⟩
    · rw [c3, s3]
      refine ⟨by linarith, by linarith, by linarith, by linarith⟩
    · rw [c4, s4, e3]
      refine ⟨by linarith, by linarith, by linarith, by linarith⟩
    · rw [c5, s5, e3]
      refine ⟨by linarith, by linarith, by linarith, by linarith⟩

lemma length_addRec (hs : List Hexa) (d : Rec) : (addRec hs d).length = hs.length := by
  simp only [addRec]
  cases hget : hs.get? (nearestIdx (Q3.ofQ d.cx, Q3.ofQ d.cy) hs) with
  | none => rfl
  | some h => simp [List.length_set]

lemma length_assignRecs : ∀ (ds : List Rec) (hs : List Hexa),
    (assignRecs hs ds).length = hs.length := by
  intro ds
  induction ds with
  | nil => intro hs; rfl
  | cons d rest ih =>
      intro hs
      show (List.foldl addRec (addRec hs d) rest).length = _
      rw [show List.foldl addRec (addRec hs d) rest = assignRecs (addRec hs d) rest from rfl,
        ih, length_addRec]

/-- C5.  NewHexagram fails with the construction error exactly when the
tile-building phase produced no tile, equivalently (for nonempty input)
when no candidate center's bounding box intersected any record's bounding
box; on failure only the error is returned, and on success the tile list
is nonempty. -/
theorem C5_error_iff (data : List Rec) (r : ℚ) (hr : 0 < r) :
    ((∃ e, newHexagram data r = Except.error e) ↔ hexesFromData data r = []) ∧
    (hexesFromData data r = [] ↔
      ∀ bb, dataBounds data = some bb →
        ∀ p ∈ candCenters bb r, ∀ d ∈ data, ¬ (recIntersectsPoint d p.1 p.2 = true)) ∧
    (∀ hg, newHexagram data r = Except.ok hg → hg.hexes ≠ []) := by
  refine ⟨?_, ?_, ?_⟩
  · unfold newHexagram
    by_cases hb : (hexesFromData data r).isEmpty
    · rw [if_pos hb]
      simp only [List.isEmpty_iff] at hb
      simp [hb]
    · rw [if_neg hb]
      simp only [Bool.not_eq_true, List.isEmpty_eq_false_iff_exists_mem] at hb
      constructor
      · rintro ⟨e, he⟩
        exact absurd he (by simp)
      · intro h
        rcases hb with ⟨x, hx⟩
        rw [h] at hx
        cases hx
  · unfold hexesFromData
    cases hdb : dataBounds data with
    | none =>
        simp only [hdb]
        constructor
        · intro _ bb hbb
          cases hbb
        · intro _
          trivial
    | some bb =>
        simp only [hdb]
        rw [List.map_eq_nil_iff, List.enum_eq_nil, List.filter_eq_nil_iff]
        constructor
        · intro h bb' hbb' p hp d hd hcontra
          cases hbb'
          have h2 := h p hp
          rw [List.any_eq_true] at h2
          exact h2 ⟨d, hd, hcontra⟩
        · intro h p hp
          rw [List.any_eq_true]
          rintro ⟨d, hd, hcontra⟩
          exact h bb rfl p hp d hd hcontra
  · intro hg hok
    unfold newHexagram at hok
    by_cases hb : (hexesFromData data r).isEmpty
    · rw [if_pos hb] at hok
      cases hok
    · rw [if_neg hb] at hok
      cases hok
      intro hnil
      have hnil' : assignRecs (hexesFromData data r) data = [] := hnil
      have hlen : (assignRecs (hexesFromData data r) data).length
          = (hexesFromData data r).length := length_assignRecs data _
      rw [hnil'] at hlen
      simp only [List.length_nil] at hlen
      have hz : hexesFromData data r = [] := List.length_eq_zero.mp hlen.symm
      rw [hz] at hb
      exact hb rfl

/-- Input records for the C5 witness: two records whose shared bounding
box corner is populated by neither, so that a large radius yields zero
tiles. -/
def wRecC : Rec :=
  { cx := 1/2, cy := 21/2, bMinX := 0, bMinY := 10, bMaxX := 1, bMaxY := 11,
    weight := 1, group := "a" }

def wRecD : Rec :=
  { cx := 21/2, cy := 1/2, bMinX := 10, bMinY := 0, bMaxX := 11, bMaxY := 1,
    weight := 1, group := "b" }

/-- Witness for C5_error_iff: with radius 100 the construction of wRecC
and wRecD errors, and correspondingly built zero tiles. -/
theorem C5_error_iff_witness :
    (0 : ℚ) < 100 ∧ hexesFromData [wRecC, wRecD] 100 = [] :=
  ⟨by norm_num,
    (C5_error_iff [wRecC, wRecD] 100 (by norm_num)).1.mp
      ⟨"tilegram: no hexagons of given radius fit within given bounds",
        by with_unfolding_all rfl⟩⟩

lemma distribute_ratio_le (ρ : ℚ) : ∀ (fuel : Nat) (hg hg' : Hexagram),
    distribute ρ fuel hg = some hg' → (rangeRat hg'.hexes).1 ≤ ρ := by
  intro fuel
  induction fuel with
  | zero =>
      intro hg hg' h
      simp [distribute] at h
  | succ n ih =>
      intro hg hg' h
      unfold distribute at h
      by_cases hc : (rangeRat hg.hexes).1 ≤ ρ
      · rw [if_pos hc] at h
        cases h
        exact hc
      · rw [if_neg hc] at h
        exact ih _ _ h

/-- C7.  When the current range ratio is already no greater than the
target, Distribute exits at its very first ratio check with zero
transfers, returning every tile list unchanged; and the ratio check is
the sole exit of the loop: whatever state the loop returns satisfies the
ratio bound. -/
theorem C7_distribute_idle (hg : Hexagram) (ρ : ℚ) :
    ((rangeRat hg.hexes).1 ≤ ρ → ∀ fuel, distribute ρ (fuel + 1) hg = some hg) ∧
    (∀ fuel hg', distribute ρ fuel hg = some hg' → (rangeRat hg'.hexes).1 ≤ ρ) := by
  constructor
  · intro h fuel
    unfold distribute
    rw [if_pos h]
  · exact fun fuel hg' => distribute_ratio_le ρ fuel hg hg'

/-- Tiles for the C7 witness: two tiles of equal weight, range ratio 0. -/
def wHexA : Hexa :=
  { px := ⟨0, 0⟩, py := ⟨0, 0⟩,
    data := [{ cx := 0, cy := 0, bMinX := 0, bMinY := 0, bMaxX := 0, bMaxY := 0,
               weight := 1, group := "a" }], idx := 0, r := 1 }

def wHexB : Hexa :=
  { px := ⟨3, 0⟩, py := ⟨0, 0⟩,
    data := [{ cx := 3, cy := 0, bMinX := 3, bMinY := 0, bMaxX := 3, bMaxY := 0,
               weight := 1, group := "b" }], idx := 1, r := 1 }

/-- Witness for C7_distribute_idle at a two-tile hexagram with equal
weights and target ratio 0. -/
theorem C7_distribute_idle_witness :
    (rangeRat (Hexagram.mk [wHexA, wHexB] 1).hexes).1 ≤ 0 ∧
      distribute 0 1 (Hexagram.mk [wHexA, wHexB] 1) =
        some (Hexagram.mk [wHexA, wHexB] 1) :=
  ⟨by with_unfolding_all decide,
    (C7_distribute_idle (Hexagram.mk [wHexA, wHexB] 1) 0).1
      (by with_unfolding_all decide) 0⟩

lemma accumGroup_zero (g : String) : ∀ (acc : List (String × ℚ)),
    (∀ p ∈ acc, p.2 = 0) → ∀ p ∈ accumGroup acc g 0, p.2 = 0 := by
  intro acc
  induction acc with
  | nil =>
      intro _ p hp
      simp only [accumGroup, List.mem_singleton] at hp
      rw [hp]
  | cons e rest ih =>
      intro hall p hp
      simp only [accumGroup] at hp
      by_cases he : e.1 = g
      · rw [if_pos he] at hp
        rcases List.mem_cons.mp hp with h1 | h2
        · rw [h1]
          have : e.2 = 0 := hall e (List.mem_cons_self e rest)
          simp [this]
        · exact hall p (List.mem_cons_of_mem e h2)
      · rw [if_neg he] at hp
        rcases List.mem_cons.mp hp with h1 | h2
        · rw [h1]
          exact hall e (List.mem_cons_self e rest)
        · exact ih (fun q hq => hall q (List.mem_cons_of_mem e hq)) p h2

lemma groupFold_zero : ∀ (ds : List Rec) (acc : List (String × ℚ)),
    (∀ d ∈ ds, d.weight = 0) → (∀ p ∈ acc, p.2 = 0) →
    ∀ p ∈ ds.foldl (fun a d => accumGroup a d.group d.weight) acc, p.2 = 0 := by
  intro ds
  induction ds with
  | nil => intro acc _ hacc p hp; exact hacc p hp
  | cons d rest ih =>
      intro acc hds hacc p hp
      simp only [List.foldl_cons] at hp
      have hd0 : d.weight = 0 := hds d (List.mem_cons_self d rest)
      rw [hd0] at hp
      exact ih _ (fun e he => hds e (List.mem_cons_of_mem d he))
        (accumGroup_zero d.group acc hacc) p hp

lemma bestFold_zero : ∀ (gw : List (String × ℚ)),
    (∀ p ∈ gw, p.2 = 0) →
    (gw.foldl (fun best p => if best.2 < p.2 then p else best) ("", 0)).1 = "" := by
  have haux : ∀ (gw : List (String × ℚ)),
      (∀ p ∈ gw, p.2 = 0) →
      gw.foldl (fun best p => if best.2 < p.2 then p else best) ("", 0) = ("", 0) := by
    intro gw
    induction gw with
    | nil => intro _; rfl
    | cons p rest ih =>
        intro hall
        simp only [List.foldl_cons]
        have hp0 : p.2 = 0 := hall p (List.mem_cons_self p rest)
        have hif : (if (("", (0:ℚ)).2 < p.2) then p else ("", (0:ℚ))) = ("", 0) := by
          simp [hp0]
        rw [hif]
        exact ih (fun q hq => hall q (List.mem_cons_of_mem p hq))
  intro gw h
  rw [haux gw h]

lemma grp_of_zero (hh : Hexa) (h : ∀ d ∈ hh.data, d.weight = 0) : hh.grp = "" := by
  unfold Hexa.grp
  exact bestFold_zero _ (groupFold_zero hh.data [] h (by intro p hp; cases hp))

lemma lookupGroup_appendAssoc_self {γ : Type} :
    ∀ (l : List (String × List γ)) (k : String) (v : γ),
    v ∈ lookupGroup (appendAssoc l k v) k := by
  intro l
  induction l with
  | nil =>
      intro k v
      simp [appendAssoc, lookupGroup, List.find?]
  | cons e rest ih =>
      intro k v
      simp only [appendAssoc]
      by_cases he : e.1 = k
      · rw [if_pos he]
        simp [lookupGroup, List.find?, he]
      · rw [if_neg he]
        have hbe : (e.1 == k) = false := by simp [he]
        simp only [lookupGroup, List.find?, hbe]
        exact ih k v

lemma lookupGroup_appendAssoc_mono {γ : Type} :
    ∀ (l : List (String × List γ)) (k k' : String) (v v' : γ),
    v ∈ lookupGroup l k → v ∈ lookupGroup (appendAssoc l k' v') k := by
  intro l
  induction l with
  | nil =>
      intro k k' v v' hv
      simp [lookupGroup, List.find?] at hv
  | cons e rest ih =>
      intro k k' v v' hv
      simp only [appendAssoc]
      by_cases he : e.1 = k'
      · rw [if_pos he]
        by_cases hek : e.1 = k
        · have hbe : (e.1 == k) = true := by simp [hek]
          simp only [lookupGroup, List.find?, hbe] at hv ⊢
          exact List.mem_append_left _ hv
        · have hbe : (e.1 == k) = false := by simp [hek]
          simp only [lookupGroup, List.find?, hbe] at hv ⊢
          exact hv
      · rw [if_neg he]
        by_cases hek : e.1 = k
        · have hbe : (e.1 == k) = true := by simp [hek]
          simp only [lookupGroup, List.find?, hbe] at hv ⊢
          exact hv
        · have hbe : (e.1 == k) = false := by simp [hek]
          simp only [lookupGroup, List.find?, hbe] at hv ⊢
          exact ih k k' v v' hv

lemma groupPolys_fold_mem {γ : Type} (geomOf : Hexa → γ) :
    ∀ (hs : List Hexa) (acc : List (String × List γ)) (hh : Hexa),
    hh ∈ hs ∨ geomOf hh ∈ lookupGroup acc hh.grp →
    geomOf hh ∈
      lookupGroup (hs.foldl (fun a h => appendAssoc a h.grp (geomOf h)) acc) hh.grp := by
  intro hs
  induction hs with
  | nil =>
      intro acc hh hmem
      rcases hmem with h | h
      · cases h
      · exact h
  | cons h0 rest ih =>
      intro acc hh hmem
      simp only [List.foldl_cons]
      rcases hmem with h | h
      · rcases List.mem_cons.mp h with h1 | h2
        · subst h1
          exact ih _ hh (Or.inr (lookupGroup_appendAssoc_self acc hh.grp (geomOf hh)))
        · exact ih _ hh (Or.inl h2)
      · exact ih _ hh (Or.inr (lookupGroup_appendAssoc_mono acc _ _ _ _ h))

/-- C10.  A tile with no records, or whose records all have zero weight,
has dominant group "": the Go fold starts from ("", 0) and only replaces
it on a strictly greater group weight.  GroupGeom therefore aggregates
such a tile's geometry under the empty-string key. -/
theorem C10_empty_group (hh : Hexa)
    (hz : hh.data = [] ∨ ∀ d ∈ hh.data, d.weight = 0) :
    hh.grp = "" ∧
    ∀ (γ : Type) (geomOf : Hexa → γ) (hs : List Hexa), hh ∈ hs →
      geomOf hh ∈ lookupGroup (groupPolys geomOf hs) "" := by
  have hg : hh.grp = "" := by
    rcases hz with h | h
    · exact grp_of_zero hh (by rw [h]; intro d hd; cases hd)
    · exact grp_of_zero hh h
  refine ⟨hg, ?_⟩
  intro γ geomOf hs hmem
  have := groupPolys_fold_mem geomOf hs [] hh (Or.inl hmem)
  rw [hg] at this
  exact this

/-- Witness for C10_empty_group at a tile with an empty record list. -/
theorem C10_empty_group_witness :
    (({ px := ⟨0, 0⟩, py := ⟨0, 0⟩, data := [], idx := 0, r := 1 } : Hexa).data = [] ∨
      ∀ d ∈ ({ px := ⟨0, 0⟩, py := ⟨0, 0⟩, data := [], idx := 0, r := 1 } : Hexa).data,
        d.weight = 0) ∧
    ({ px := ⟨0, 0⟩, py := ⟨0, 0⟩, data := [], idx := 0, r := 1 } : Hexa).grp = "" ∧
    (7 : Nat) ∈ lookupGroup
      (groupPolys (fun _ => (7 : Nat))
        [{ px := ⟨0, 0⟩, py := ⟨0, 0⟩, data := [], idx := 0, r := 1 }]) "" := by
  refine ⟨Or.inl rfl, ?_, ?_⟩
  · exact (C10_empty_group _ (Or.inl rfl)).1
  · exact (C10_empty_group _ (Or.inl rfl)).2 Nat (fun _ => 7) _ (List.mem_singleton.mpr rfl)

/-- Cumulative weight of a record list. -/
def cumW (l : List Rec) : ℚ := (l.map Rec.weight).sum

lemma moveCount_le_length (amount : ℚ) : ∀ (l : List Rec) (s : ℚ),
    moveCount amount s l ≤ l.length := by
  intro l
  induction l with
  | nil => intro s; simp [moveCount]
  | cons d rest ih =>
      intro s
      unfold moveCount
      by_cases hc : amount ≤ s + d.weight
      · rw [if_pos hc]
        simp
      · rw [if_neg hc]
        have := ih (s + d.weight)
        simp only [List.length_cons]
        omega

lemma moveCount_pos (amount : ℚ) (l : List Rec) (s : ℚ) (h : l ≠ []) :
    1 ≤ moveCount amount s l := by
  cases l with
  | nil => exact absurd rfl h
  | cons d rest =>
      unfold moveCount
      by_cases hc : amount ≤ s + d.weight
      · rw [if_pos hc]
      · rw [if_neg hc]
        omega

lemma moveCount_reaches (amount : ℚ) : ∀ (l : List Rec) (s : ℚ),
    amount ≤ s + cumW (l.take (moveCount amount s l)) ∨
      moveCount amount s l = l.length := by
  intro l
  induction l with
  | nil => intro s; right; rfl
  | cons d rest ih =>
      intro s
      unfold moveCount
      by_cases hc : amount ≤ s + d.weight
      · rw [if_pos hc]
        left
        simp [cumW, hc]
      · rw [if_neg hc]
        rcases ih (s + d.weight) with h | h
        · left
          rw [Nat.add_comm 1 (moveCount amount (s + d.weight) rest)]
          have ht : List.take (moveCount amount (s + d.weight) rest + 1) (d :: rest)
              = d :: List.take (moveCount amount (s + d.weight) rest) rest := rfl
          rw [ht]
          simp only [cumW, List.map_cons, List.sum_cons]
          unfold cumW at h
          linarith
        · right
          simp only [List.length_cons, h]
          omega

lemma moveCount_min (amount : ℚ) : ∀ (l : List Rec) (s : ℚ) (j : Nat),
    1 ≤ j → j < moveCount amount s l → s + cumW (l.take j) < amount := by
  intro l
  induction l with
  | nil =>
      intro s j h1 h2
      unfold moveCount at h2
      omega
  | cons d rest ih =>
      intro s j h1 h2
      unfold moveCount at h2
      by_cases hc : amount ≤ s + d.weight
      · rw [if_pos hc] at h2
        omega
      · rw [if_neg hc] at h2
        cases j with
        | zero => omega
        | succ jj =>
            cases jj with
            | zero =>
                have ht : List.take (0 + 1) (d :: rest) = [d] := rfl
                rw [ht]
                simp only [cumW, List.map_cons, List.map_nil, List.sum_cons,
                  List.sum_nil, add_zero]
                linarith [not_le.mp hc]
            | succ jjj =>
                have hlt : jjj + 1 < moveCount amount (s + d.weight) rest := by omega
                have hih := ih (s + d.weight) (jjj + 1) (by omega) hlt
                have ht : List.take (jjj + 1 + 1) (d :: rest)
                    = d :: List.take (jjj + 1) rest := rfl
                rw [ht]
                simp only [cumW, List.map_cons, List.sum_cons] at hih ⊢
                linarith

lemma bubbleIns_perm (less : Rec → Rec → Bool) (x : Rec) :
    ∀ l : List Rec, (bubbleIns less x l).Perm (x :: l) := by
  intro l
  induction l with
  | nil => exact List.Perm.refl _
  | cons y ys ih =>
      unfold bubbleIns
      by_cases hc : less x y = true
      · rw [if_pos hc]
        exact (ih.cons y).trans (List.Perm.swap x y ys)
      · rw [if_neg hc]

lemma goSort_perm (less : Rec → Rec → Bool) (l : List Rec) :
    (goSort less l).Perm l := by
  have haux : ∀ (l acc : List Rec),
      (List.foldl (fun a x => bubbleIns less x a) acc l).Perm (l ++ acc) := by
    intro l
    induction l with
    | nil => intro acc; simp
    | cons x t ih =>
        intro acc
        simp only [List.foldl_cons]
        refine (ih (bubbleIns less x acc)).trans ?_
        refine (List.Perm.append_left t (bubbleIns_perm less x acc)).trans ?_
        exact List.perm_middle
  unfold goSort
  have h1 := (List.reverse_perm _).trans (haux l [])
  simpa using h1

/-- C4, counterexample.  At amount 0 the smallest prefix (under any
ordering) whose cumulative weight is at least the amount is the empty
prefix of weight 0, so the claim requires transfer to move nothing; the
Go loop is a do-while and moves one record of weight 1. -/
theorem C4_counterexample :
    (0 : ℚ) ≤ cumW [] ∧
    (transferHex
      { px := ⟨0, 0⟩, py := ⟨0, 0⟩,
        data := [{ cx := 0, cy := 0, bMinX := 0, bMinY := 0, bMaxX := 0, bMaxY := 0,
                   weight := 1, group := "a" }], idx := 0, r := 1 }
      { px := ⟨3, 0⟩, py := ⟨0, 0⟩, data := [], idx := 1, r := 1 } 0).2.data
      = [{ cx := 0, cy := 0, bMinX := 0, bMinY := 0, bMaxX := 0, bMaxY := 0,
           weight := 1, group := "a" }] ∧
    cumW [{ cx := 0, cy := 0, bMinX := 0, bMinY := 0, bMaxX := 0, bMaxY := 0,
            weight := 1, group := "a" }] ≠ 0 := by
  refine ⟨le_refl 0, by with_unfolding_all rfl, by norm_num [cumW]⟩

/-- C4, amended.  transfer(source, target, amount) first sorts the
source's records in place with Go's sort under the comparator
hexSort.Less (match-target-group-first, then lighter-first; the
comparator is not a strict weak order, so the resulting order is the one
produced by Go's insertion sort and matching records do not always come
first).  It then moves the shortest nonempty prefix of the sorted list
whose cumulative weight reaches the amount, or the whole list when the
total weight stays below the amount; at least one record moves whenever
the source is nonempty (so for amount <= 0 one record moves, not zero).
Moved records are appended to the target's list; the source keeps the
remaining suffix of the sorted list. -/
theorem C4_transfer (h n : Hexa) (amount : ℚ) :
    (goSort (lessFor n) h.data).Perm h.data ∧
    (transferHex h n amount).1.data =
      (goSort (lessFor n) h.data).drop
        (moveCount amount 0 (goSort (lessFor n) h.data)) ∧
    (transferHex h n amount).2.data =
      n.data ++ (goSort (lessFor n) h.data).take
        (moveCount amount 0 (goSort (lessFor n) h.data)) ∧
    moveCount amount 0 (goSort (lessFor n) h.data) ≤
      (goSort (lessFor n) h.data).length ∧
    (h.data ≠ [] → 1 ≤ moveCount amount 0 (goSort (lessFor n) h.data)) ∧
    (amount ≤ cumW ((goSort (lessFor n) h.data).take
        (moveCount amount 0 (goSort (lessFor n) h.data))) ∨
      moveCount amount 0 (goSort (lessFor n) h.data) =
        (goSort (lessFor n) h.data).length) ∧
    (∀ j, 1 ≤ j → j < moveCount amount 0 (goSort (lessFor n) h.data) →
      cumW ((goSort (lessFor n) h.data).take j) < amount) := by
  refine ⟨goSort_perm _ _, rfl, rfl, moveCount_le_length amount _ 0, ?_, ?_, ?_⟩
  · intro hne
    refine moveCount_pos amount _ 0 ?_
    intro hs
    have := (goSort_perm (lessFor n) h.data).length_eq
    rw [hs] at this
    simp only [List.length_nil] at this
    exact hne (List.length_eq_zero.mp this.symm)
  · have := moveCount_reaches amount (goSort (lessFor n) h.data) 0
    simpa using this
  · intro j h1 h2
    have := moveCount_min amount (goSort (lessFor n) h.data) 0 j h1 h2
    linarith

/-- Witness for C4_transfer: the one-record source is nonempty and the
loop moves that record. -/
theorem C4_transfer_witness :
    (({ px := ⟨0, 0⟩, py := ⟨0, 0⟩,
        data := [{ cx := 0, cy := 0, bMinX := 0, bMinY := 0, bMaxX := 0, bMaxY := 0,
                   weight := 1, group := "a" }], idx := 0, r := 1 } : Hexa).data ≠ []) ∧
    1 ≤ moveCount 2 0 (goSort
      (lessFor { px := ⟨3, 0⟩, py := ⟨0, 0⟩, data := [], idx := 1, r := 1 })
      ({ px := ⟨0, 0⟩, py := ⟨0, 0⟩,
         data := [{ cx := 0, cy := 0, bMinX := 0, bMinY := 0, bMaxX := 0, bMaxY := 0,
                    weight := 1, group := "a" }], idx := 0, r := 1 } : Hexa).data) :=
  ⟨by simp,
    (C4_transfer
      { px := ⟨0, 0⟩, py := ⟨0, 0⟩,
        data := [{ cx := 0, cy := 0, bMinX := 0, bMinY := 0, bMaxX := 0, bMaxY := 0,
                   weight := 1, group := "a" }], idx := 0, r := 1 }
      { px := ⟨3, 0⟩, py := ⟨0, 0⟩, data := [], idx := 1, r := 1 } 2).2.2.2.2.1
      (by simp)⟩

lemma q3_le_refl (x : Q3) : x ≤ x := (Q3.le_iff_toReal x x).mpr le_rfl

lemma q3_le_trans {x y z : Q3} (h1 : x ≤ y) (h2 : y ≤ z) : x ≤ z :=
  (Q3.le_iff_toReal x z).mpr
    (le_trans ((Q3.le_iff_toReal x y).mp h1) ((Q3.le_iff_toReal y z).mp h2))

lemma q3_le_of_not_lt {x y : Q3} (h : ¬ x < y) : y ≤ x := not_not.mp h

lemma q3_le_of_lt {x y : Q3} (h : x < y) : x ≤ y :=
  (Q3.le_iff_toReal x y).mpr (le_of_lt ((Q3.lt_iff_toReal x y).mp h))

lemma foldlArgmin_spec (f : Nat → Q3) : ∀ (js : List Nat) (b : Nat),
    (List.foldl (fun best j => if f j < f best then j else best) b js = b ∨
      List.foldl (fun best j => if f j < f best then j else best) b js ∈ js) ∧
    f (List.foldl (fun best j => if f j < f best then j else best) b js) ≤ f b ∧
    ∀ j ∈ js, f (List.foldl (fun best j => if f j < f best then j else best) b js) ≤ f j := by
  intro js
  induction js with
  | nil =>
      intro b
      exact ⟨Or.inl rfl, q3_le_refl _, by intro j hj; cases hj⟩
  | cons j0 rest ih =>
      intro b
      simp only [List.foldl_cons]
      by_cases hc : f j0 < f b
      · rw [if_pos hc]
        rcases ih j0 with ⟨hmem, hle, hall⟩
        refine ⟨?_, ?_, ?_⟩
        · rcases hmem with h | h
          · exact Or.inr (by rw [h]; exact List.mem_cons_self j0 rest)
          · exact Or.inr (List.mem_cons_of_mem j0 h)
        · exact q3_le_trans hle (q3_le_of_lt hc)
        · intro j hj
          rcases List.mem_cons.mp hj with h | h
          · rw [h]; exact hle
          · exact hall j h
      · rw [if_neg hc]
        rcases ih b with ⟨hmem, hle, hall⟩
        refine ⟨?_, hle, ?_⟩
        · rcases hmem with h | h
          · exact Or.inl h
          · exact Or.inr (List.mem_cons_of_mem j0 h)
        · intro j hj
          rcases List.mem_cons.mp hj with h | h
          · rw [h]; exact q3_le_trans hle (q3_le_of_not_lt hc)
          · exact hall j h

lemma nearestIdx_lt (c : Q3 × Q3) (hs : List Hexa) (h : hs ≠ []) :
    nearestIdx c hs < hs.length := by
  unfold nearestIdx
  rcases (foldlArgmin_spec (hexDist c hs) (List.range hs.length) 0).1 with h0 | hmem
  · rw [h0]
    exact List.length_pos.mpr h
  · exact List.mem_range.mp hmem

lemma nearestIdx_min (c : Q3 × Q3) (hs : List Hexa) :
    ∀ j, j < hs.length → hexDist c hs (nearestIdx c hs) ≤ hexDist c hs j := by
  intro j hj
  exact (foldlArgmin_spec (hexDist c hs) (List.range hs.length) 0).2.2 j
    (List.mem_range.mpr hj)

lemma totalWgt_set : ∀ (hs : List Hexa) (i : Nat) (hi h' : Hexa),
    hs.get? i = some hi →
    totalWgt (hs.set i h') = totalWgt hs - hi.wgt + h'.wgt := by
  intro hs
  induction hs with
  | nil => intro i hi h' hget; cases hget
  | cons x t ih =>
      intro i hi h' hget
      cases i with
      | zero =>
          cases hget
          show totalWgt (h' :: t) = _
          simp only [totalWgt, List.map_cons, List.sum_cons]
          ring
      | succ n =>
          have hget' : t.get? n = some hi := hget
          show totalWgt (x :: t.set n h') = _
          simp only [totalWgt, List.map_cons, List.sum_cons]
          have := ih n hi h' hget'
          unfold totalWgt at this
          rw [this]
          ring

lemma cumW_append (a b : List Rec) : cumW (a ++ b) = cumW a + cumW b := by
  simp [cumW]

lemma cumW_perm {a b : List Rec} (h : a.Perm b) : cumW a = cumW b :=
  List.Perm.sum_eq (h.map Rec.weight)

lemma cumW_take_drop (l : List Rec) (k : Nat) :
    cumW (l.take k) + cumW (l.drop k) = cumW l := by
  rw [← cumW_append, List.take_append_drop]

lemma wgt_eq_cumW (h : Hexa) : h.wgt = cumW h.data := rfl

lemma transferAt_totalWgt (hs : List Hexa) (i j : Nat) (amount : ℚ) :
    totalWgt (transferAt hs i j amount) = totalWgt hs := by
  unfold transferAt
  cases hgi : hs.get? i with
  | none => rfl
  | some hi =>
      cases hgj : hs.get? j with
      | none => rfl
      | some hj =>
          dsimp only
          by_cases hij : i = j
          · rw [if_pos hij]
            rw [totalWgt_set hs i hi _ hgi]
            have : ({ hi with
                data := (goSort (lessFor hi) hi.data).drop
                    (moveCount amount 0 (goSort (lessFor hi) hi.data)) ++
                  (goSort (lessFor hi) hi.data).take
                    (moveCount amount 0 (goSort (lessFor hi) hi.data)) } : Hexa).wgt
                = hi.wgt := by
              rw [wgt_eq_cumW, wgt_eq_cumW]
              show cumW (_ ++ _) = _
              rw [cumW_append, add_comm, cumW_take_drop]
              exact cumW_perm (goSort_perm _ _)
            rw [this]
            ring
          · rw [if_neg hij]
            have hgj' : (hs.set i (transferHex hi hj amount).1).get? j = some hj := by
              rw [List.get?_set_ne _ _ hij]
              exact hgj
            rw [totalWgt_set _ j hj _ hgj', totalWgt_set hs i hi _ hgi]
            have h1 : (transferHex hi hj amount).1.wgt
                = cumW ((goSort (lessFor hj) hi.data).drop
                    (moveCount amount 0 (goSort (lessFor hj) hi.data))) := rfl
            have h2 : (transferHex hi hj amount).2.wgt
                = cumW hj.data + cumW ((goSort (lessFor hj) hi.data).take
                    (moveCount amount 0 (goSort (lessFor hj) hi.data))) := by
              rw [wgt_eq_cumW]
              show cumW (hj.data ++ _) = _
              rw [cumW_append]
            rw [h1, h2, wgt_eq_cumW hi, wgt_eq_cumW hj]
            have hperm : cumW (goSort (lessFor hj) hi.data) = cumW hi.data :=
              cumW_perm (goSort_perm _ _)
            have htd := cumW_take_drop (goSort (lessFor hj) hi.data)
              (moveCount amount 0 (goSort (lessFor hj) hi.data))
            linarith

lemma applyOps_totalWgt : ∀ (ops : List (Nat × Nat × ℚ)) (hs : List Hexa),
    totalWgt (applyOps hs ops) = totalWgt hs := by
  intro ops
  induction ops with
  | nil => intro hs; rfl
  | cons op rest ih =>
      intro hs
      show totalWgt (applyOps (transferAt hs op.1 op.2.1 op.2.2) rest) = _
      rw [ih, transferAt_totalWgt]

lemma foldl_totalWgt_pres {β : Type} (f : List Hexa → β → List Hexa)
    (hf : ∀ s x, totalWgt (f s x) = totalWgt s) :
    ∀ (l : List β) (s : List Hexa), totalWgt (List.foldl f s l) = totalWgt s := by
  intro l
  induction l with
  | nil => intro s; rfl
  | cons x t ih =>
      intro s
      rw [List.foldl_cons, ih, hf]

lemma distributeStep_totalWgt (hg : Hexagram) (mean : ℚ) :
    totalWgt (distributeStep hg mean).hexes = totalWgt hg.hexes := by
  unfold distributeStep
  refine foldl_totalWgt_pres _ ?_ _ _
  intro s i
  cases hgi : s.get? i with
  | none => rfl
  | some hh =>
      simp only [hgi]
      by_cases hc : mean < hh.wgt
      · rw [if_pos hc]
        refine foldl_totalWgt_pres _ ?_ _ _
        intro s2 j
        cases hg2i : s2.get? i with
        | none => rfl
        | some hi =>
            cases hg2j : s2.get? j with
            | none => simp only [hg2j]
            | some hj =>
                simp only [hg2j]
                by_cases hw : 0 < hi.wgt - hj.wgt
                · rw [if_pos hw]
                  exact transferAt_totalWgt _ _ _ _
                · rw [if_neg hw]
      · rw [if_neg hc]

lemma distribute_totalWgt (ρ : ℚ) : ∀ (fuel : Nat) (hg hg' : Hexagram),
    distribute ρ fuel hg = some hg' → totalWgt hg'.hexes = totalWgt hg.hexes := by
  intro fuel
  induction fuel with
  | zero => intro hg hg' h; simp [distribute] at h
  | succ n ih =>
      intro hg hg' h
      unfold distribute at h
      by_cases hc : (rangeRat hg.hexes).1 ≤ ρ
      · rw [if_pos hc] at h
        cases h
        rfl
      · rw [if_neg hc] at h
        rw [ih _ _ h, distributeStep_totalWgt]

lemma hexesFromData_data_nil (data : List Rec) (r : ℚ) :
    ∀ hx ∈ hexesFromData data r, hx.data = [] := by
  intro hx hmem
  unfold hexesFromData at hmem
  cases hdb : dataBounds data with
  | none => rw [hdb] at hmem; cases hmem
  | some bb =>
      rw [hdb] at hmem
      rcases List.mem_map.mp hmem with ⟨ip, _, rfl⟩
      rfl

lemma totalWgt_nil_data : ∀ (hs : List Hexa), (∀ hx ∈ hs, hx.data = []) →
    totalWgt hs = 0 := by
  intro hs
  induction hs with
  | nil => intro _; rfl
  | cons x t ih =>
      intro h
      show x.wgt + totalWgt t = 0
      rw [ih (fun hx hm => h hx (List.mem_cons_of_mem x hm)),
        wgt_eq_cumW, h x (List.mem_cons_self x t)]
      simp [cumW]

lemma totalWgt_addRec (hs : List Hexa) (d : Rec) (h : hs ≠ []) :
    totalWgt (addRec hs d) = totalWgt hs + d.weight := by
  unfold addRec
  have hk : nearestIdx (Q3.ofQ d.cx, Q3.ofQ d.cy) hs < hs.length := nearestIdx_lt _ _ h
  have hget := List.get?_eq_get hk
  simp only [hget]
  rw [totalWgt_set hs _ _ _ hget, wgt_eq_cumW, wgt_eq_cumW]
  show totalWgt hs - cumW _ + cumW (_ ++ [d]) = _
  rw [cumW_append]
  have hone : cumW [d] = d.weight := by simp [cumW]
  rw [hone]
  ring

lemma totalWgt_assignRecs : ∀ (ds : List Rec) (hs : List Hexa), hs ≠ [] →
    totalWgt (assignRecs hs ds) = totalWgt hs + cumW ds := by
  intro ds
  induction ds with
  | nil =>
      intro hs _
      show totalWgt hs = totalWgt hs + cumW []
      simp [cumW]
  | cons d rest ih =>
      intro hs hne
      show totalWgt (assignRecs (addRec hs d) rest) = _
      have hne' : addRec hs d ≠ [] := by
        intro hcon
        have := length_addRec hs d
        rw [hcon] at this
        exact hne (List.length_eq_zero.mp this.symm)
      rw [ih _ hne', totalWgt_addRec hs d hne]
      show totalWgt hs + d.weight + cumW rest = totalWgt hs + cumW (d :: rest)
      simp only [cumW, List.map_cons, List.sum_cons]
      ring

/-- C1.  For every TileSet built by NewHexagram, the sum over all tiles of
their records' weights equals the total weight of the input records, and
this is invariant under any sequence of transfer operations and under any
terminating run of Distribute (whose only mutations are transfers). -/
theorem C1_weight_conservation (data : List Rec) (r : ℚ) (hg : Hexagram)
    (hok : newHexagram data r = Except.ok hg) :
    (∀ ops : List (Nat × Nat × ℚ), totalWgt (applyOps hg.hexes ops) = cumW data) ∧
    (∀ ρ fuel hg', distribute ρ fuel hg = some hg' → totalWgt hg'.hexes = cumW data) := by
  have hbase : totalWgt hg.hexes = cumW data := by
    unfold newHexagram at hok
    by_cases hb : (hexesFromData data r).isEmpty
    · rw [if_pos hb] at hok
      cases hok
    · rw [if_neg hb] at hok
      cases hok
      show totalWgt (assignRecs (hexesFromData data r) data) = cumW data
      have hne : hexesFromData data r ≠ [] := by
        intro hcon
        rw [hcon] at hb
        exact hb rfl
      rw [totalWgt_assignRecs data _ hne,
        totalWgt_nil_data _ (hexesFromData_data_nil data r)]
      ring
  constructor
  · intro ops
    rw [applyOps_totalWgt, hbase]
  · intro ρ fuel hg' h
    rw [distribute_totalWgt ρ fuel hg hg' h, hbase]

/-- Input records for the C1 and C3 witnesses: two point records three
units apart, producing a two-tile hexagram with radius 1. -/
def wRecA : Rec :=
  { cx := 0, cy := 0, bMinX := 0, bMinY := 0, bMaxX := 0, bMaxY := 0,
    weight := 1, group := "a" }

def wRecB : Rec :=
  { cx := 3, cy := 0, bMinX := 3, bMinY := 0, bMaxX := 3, bMaxY := 0,
    weight := 2, group := "b" }

/-- The hexagram NewHexagram builds from wRecA and wRecB at radius 1. -/
def wHexagram : Hexagram :=
  { hexes :=
      [{ px := ⟨0, 0⟩, py := ⟨0, 0⟩, data := [wRecA], idx := 0, r := 1 },
       { px := ⟨3, 0⟩, py := ⟨0, 0⟩, data := [wRecB], idx := 1, r := 1 }],
    r := 1 }

/-- Witness for C1_weight_conservation: the concrete two-record
construction succeeds and one transfer of amount 1/2 conserves the total
weight 3. -/
theorem C1_weight_conservation_witness :
    newHexagram [wRecA, wRecB] 1 = Except.ok wHexagram ∧
    totalWgt (applyOps wHexagram.hexes [(0, 1, 1/2)]) = cumW [wRecA, wRecB] :=
  ⟨by with_unfolding_all rfl,
    (C1_weight_conservation [wRecA, wRecB] 1 wHexagram
      (by with_unfolding_all rfl)).1 [(0, 1, 1/2)]⟩

/-- The Euclidean distance between two points of the plane. -/
noncomputable def eucDist (p q : Q3 × Q3) : ℝ :=
  Real.sqrt ((p.1.toReal - q.1.toReal) ^ 2 + (p.2.toReal - q.2.toReal) ^ 2)

lemma sqDistP_toReal (p q : Q3 × Q3) :
    (sqDistP p q).toReal =
      (p.1.toReal - q.1.toReal) ^ 2 + (p.2.toReal - q.2.toReal) ^ 2 := by
  unfold sqDistP
  rw [Q3.toReal_add, Q3.toReal_mul, Q3.toReal_mul, Q3.toReal_sub, Q3.toReal_sub]
  ring

lemma eucDist_le_of_sqDist_le {c p q : Q3 × Q3} (h : sqDistP c p ≤ sqDistP c q) :
    eucDist c p ≤ eucDist c q := by
  unfold eucDist
  apply Real.sqrt_le_sqrt
  rw [← sqDistP_toReal, ← sqDistP_toReal]
  exact (Q3.le_iff_toReal _ _).mp h

/-- The number of occurrences of a record across all tiles' record lists. -/
def totalCount (hs : List Hexa) (e : Rec) : Nat :=
  (hs.map (fun t => t.data.count e)).sum

lemma totalCount_set (e : Rec) : ∀ (hs : List Hexa) (i : Nat) (hi h' : Hexa),
    hs.get? i = some hi →
    totalCount (hs.set i h') e + hi.data.count e
      = totalCount hs e + h'.data.count e := by
  intro hs
  induction hs with
  | nil => intro i hi h' hget; cases hget
  | cons x t ih =>
      intro i hi h' hget
      cases i with
      | zero =>
          cases hget
          show (h'.data.count e + totalCount t e) + x.data.count e
            = (x.data.count e + totalCount t e) + h'.data.count e
          omega
      | succ n =>
          have hget' : t.get? n = some hi := hget
          have hrec := ih n hi h' hget'
          show (x.data.count e + totalCount (t.set n h') e) + hi.data.count e
            = (x.data.count e + totalCount t e) + h'.data.count e
          omega

lemma totalCount_addRec (hs : List Hexa) (d e : Rec) (h : hs ≠ []) :
    totalCount (addRec hs d) e = totalCount hs e + (if d = e then 1 else 0) := by
  simp only [addRec]
  have hk : nearestIdx (Q3.ofQ d.cx, Q3.ofQ d.cy) hs < hs.length := nearestIdx_lt _ _ h
  have hget := List.get?_eq_get hk
  simp only [hget]
  have hset := totalCount_set e hs _ _
    ({ hs.get ⟨_, hk⟩ with data := (hs.get ⟨_, hk⟩).data ++ [d] }) hget
  have hcount : ({ hs.get ⟨_, hk⟩ with
        data := (hs.get ⟨_, hk⟩).data ++ [d] } : Hexa).data.count e
      = (hs.get ⟨_, hk⟩).data.count e + (if d = e then 1 else 0) := by
    have hone : List.count e [d] = (if d = e then 1 else 0) := by
      by_cases hde : d = e <;> simp [List.count_singleton', hde]
    show ((hs.get ⟨_, hk⟩).data ++ [d]).count e = _
    rw [List.count_append, hone]
  dsimp only at hset hcount ⊢
  omega

lemma totalCount_assignRecs (e : Rec) : ∀ (ds : List Rec) (hs : List Hexa), hs ≠ [] →
    totalCount (assignRecs hs ds) e = totalCount hs e + ds.count e := by
  intro ds
  induction ds with
  | nil =>
      intro hs _
      show totalCount hs e = totalCount hs e + List.count e []
      simp
  | cons d rest ih =>
      intro hs hne
      show totalCount (assignRecs (addRec hs d) rest) e = _
      have hne' : addRec hs d ≠ [] := by
        intro hcon
        have := length_addRec hs d
        rw [hcon] at this
        exact hne (List.length_eq_zero.mp this.symm)
      rw [ih _ hne', totalCount_addRec hs d e hne]
      have : (d :: rest).count e = rest.count e + (if d = e then 1 else 0) := by
        rw [List.count_cons]
        by_cases hde : d = e <;> simp [hde]
      rw [this]
      omega

lemma totalCount_nil_data (e : Rec) : ∀ (hs : List Hexa),
    (∀ hx ∈ hs, hx.data = []) → totalCount hs e = 0 := by
  intro hs
  induction hs with
  | nil => intro _; rfl
  | cons x t ih =>
      intro h
      show x.data.count e + totalCount t e = 0
      rw [ih (fun hx hm => h hx (List.mem_cons_of_mem x hm)), h x (List.mem_cons_self x t)]
      rfl

/-- The tile centers of a tile list. -/
def centersOf (hs : List Hexa) : List (Q3 × Q3) := hs.map (fun t => (t.px, t.py))

lemma list_set_self {α : Type} : ∀ (l : List α) (i : Nat) (a : α),
    l.get? i = some a → l.set i a = l := by
  intro l
  induction l with
  | nil => intro i a h; cases h
  | cons x t ih =>
      intro i a h
      cases i with
      | zero => cases h; rfl
      | succ n =>
          show x :: t.set n a = x :: t
          rw [ih n a h]

lemma centersOf_addRec (hs : List Hexa) (d : Rec) :
    centersOf (addRec hs d) = centersOf hs := by
  simp only [addRec]
  cases hget : hs.get? (nearestIdx (Q3.ofQ d.cx, Q3.ofQ d.cy) hs) with
  | none => rfl
  | some hi =>
      show centersOf (hs.set _ _) = _
      unfold centersOf
      rw [List.map_set]
      apply list_set_self
      rw [List.get?_map, hget]
      rfl

/-- The nearest-assignment invariant: every record in every tile is at
least as close to its own tile's center as to any other center of the
list. -/
def NearestInv (hs : List Hexa) : Prop :=
  ∀ t ∈ hs, ∀ d ∈ t.data, ∀ c ∈ centersOf hs,
    sqDistP (Q3.ofQ d.cx, Q3.ofQ d.cy) (t.px, t.py)
      ≤ sqDistP (Q3.ofQ d.cx, Q3.ofQ d.cy) c

lemma mem_centersOf {hs : List Hexa} {c : Q3 × Q3} :
    c ∈ centersOf hs ↔ ∃ j : Fin hs.length, ((hs.get j).px, (hs.get j).py) = c := by
  unfold centersOf
  rw [List.mem_map]
  constructor
  · rintro ⟨t, hmem, rfl⟩
    rcases List.mem_iff_get.mp hmem with ⟨j, rfl⟩
    exact ⟨j, rfl⟩
  · rintro ⟨j, rfl⟩
    exact ⟨hs.get j, hs.get_mem j.1 j.2, rfl⟩

lemma addRec_nearestInv (hs : List Hexa) (d : Rec) (hne : hs ≠ [])
    (hP : NearestInv hs) : NearestInv (addRec hs d) := by
  have hcent := centersOf_addRec hs d
  intro t hmem d' hd' c hc
  rw [hcent] at hc
  simp only [addRec] at hmem
  have hk : nearestIdx (Q3.ofQ d.cx, Q3.ofQ d.cy) hs < hs.length := nearestIdx_lt _ _ hne
  have hget := List.get?_eq_get hk
  rw [hget] at hmem
  dsimp only at hmem
  rcases List.mem_or_eq_of_mem_set hmem with hold | hnew
  · exact hP t hold d' hd' c hc
  · subst hnew
    dsimp only at hd'
    rcases List.mem_append.mp hd' with holdD | hnewD
    · exact hP (hs.get ⟨_, hk⟩) (hs.get_mem _ hk) d' holdD c hc
    · have hdd : d' = d := List.mem_singleton.mp hnewD
      subst hdd
      rcases mem_centersOf.mp hc with ⟨j, rfl⟩
      have hmin := nearestIdx_min (Q3.ofQ d'.cx, Q3.ofQ d'.cy) hs j j.isLt
      have h1 : hexDist (Q3.ofQ d'.cx, Q3.ofQ d'.cy) hs
          (nearestIdx (Q3.ofQ d'.cx, Q3.ofQ d'.cy) hs)
          = sqDistP (Q3.ofQ d'.cx, Q3.ofQ d'.cy)
            ((hs.get ⟨_, hk⟩).px, (hs.get ⟨_, hk⟩).py) := by
        unfold hexDist
        rw [hget]
      have h2 : hexDist (Q3.ofQ d'.cx, Q3.ofQ d'.cy) hs j
          = sqDistP (Q3.ofQ d'.cx, Q3.ofQ d'.cy) ((hs.get j).px, (hs.get j).py) := by
        unfold hexDist
        rw [List.get?_eq_get j.isLt]
      rw [h1, h2] at hmin
      exact hmin

lemma assignRecs_nearestInv : ∀ (ds : List Rec) (hs : List Hexa), hs ≠ [] →
    NearestInv hs → NearestInv (assignRecs hs ds) := by
  intro ds
  induction ds with
  | nil => intro hs _ hP; exact hP
  | cons d rest ih =>
      intro hs hne hP
      show NearestInv (assignRecs (addRec hs d) rest)
      have hne' : addRec hs d ≠ [] := by
        intro hcon
        have := length_addRec hs d
        rw [hcon] at this
        exact hne (List.length_eq_zero.mp this.symm)
      exact ih _ hne' (addRec_nearestInv hs d hne hP)

/-- C3.  When NewHexagram succeeds with r > 0, every occurrence of an
input record is assigned to exactly one tile, and the distance from its
centroid to its own tile's center is no greater than the Euclidean
distance to any other produced tile center. -/
theorem C3_nearest_assignment (data : List Rec) (r : ℚ) (hg : Hexagram)
    (hr : 0 < r) (hok : newHexagram data r = Except.ok hg) :
    (∀ e : Rec, totalCount hg.hexes e = data.count e) ∧
    (∀ t ∈ hg.hexes, ∀ d ∈ t.data, ∀ t' ∈ hg.hexes,
      eucDist (Q3.ofQ d.cx, Q3.ofQ d.cy) (t.px, t.py)
        ≤ eucDist (Q3.ofQ d.cx, Q3.ofQ d.cy) (t'.px, t'.py)) := by
  have hexes_eq : hg.hexes = assignRecs (hexesFromData data r) data ∧
      hexesFromData data r ≠ [] := by
    unfold newHexagram at hok
    by_cases hb : (hexesFromData data r).isEmpty
    · rw [if_pos hb] at hok
      cases hok
    · rw [if_neg hb] at hok
      cases hok
      exact ⟨rfl, fun hcon => by rw [hcon] at hb; exact hb rfl⟩
  rcases hexes_eq with ⟨heq, hne⟩
  constructor
  · intro e
    rw [heq, totalCount_assignRecs e data _ hne,
      totalCount_nil_data e _ (hexesFromData_data_nil data r)]
    omega
  · intro t hmem d hd t' hmem'
    have hbase : NearestInv (hexesFromData data r) := by
      intro t0 hmem0 d0 hd0
      rw [hexesFromData_data_nil data r t0 hmem0] at hd0
      cases hd0
    have hP := assignRecs_nearestInv data _ hne hbase
    rw [heq] at hmem hmem'
    have hc : (t'.px, t'.py) ∈ centersOf (assignRecs (hexesFromData data r) data) :=
      List.mem_map.mpr ⟨t', hmem', rfl⟩
    exact eucDist_le_of_sqDist_le (hP t hmem d hd (t'.px, t'.py) hc)

/-- Witness for C3_nearest_assignment: the two-record construction at
radius 1 succeeds and assigns each record once. -/
theorem C3_nearest_assignment_witness :
    (0 : ℚ) < 1 ∧ newHexagram [wRecA, wRecB] 1 = Except.ok wHexagram ∧
    totalCount wHexagram.hexes wRecA = [wRecA, wRecB].count wRecA :=
  ⟨by norm_num, by with_unfolding_all rfl,
    (C3_nearest_assignment [wRecA, wRecB] 1 wHexagram (by norm_num)
      (by with_unfolding_all rfl)).1 wRecA⟩

/-- All points occurring in the graph, keys and out-points alike. -/
def graphPts : HullGraph → List Pt
  | [] => []
  | e :: rest => e.1 :: (e.2 ++ graphPts rest)

/-- The invariant the Go maps maintain by construction: unique keys, and
no duplicates inside an out-set. -/
def WFgraph (g : HullGraph) : Prop :=
  (g.map Prod.fst).Nodup ∧ ∀ e ∈ g, e.2.Nodup

lemma outsOf_cons (e : Pt × List Pt) (rest : HullGraph) (x : Pt) :
    outsOf (e :: rest) x = if e.1 = x then e.2 else outsOf rest x := by
  unfold outsOf
  by_cases hex : e.1 = x
  · rw [List.find?_cons_of_pos _ (by simp [hex]), if_pos hex]
  · rw [List.find?_cons_of_neg _ (by simp [hex]), if_neg hex]

lemma outsOf_no_key : ∀ (g : HullGraph) (a : Pt), (∀ e ∈ g, e.1 ≠ a) →
    outsOf g a = [] := by
  intro g
  induction g with
  | nil => intro a _; rfl
  | cons e rest ih =>
      intro a h
      rw [outsOf_cons, if_neg (h e (List.mem_cons_self e rest))]
      exact ih a (fun e' he' => h e' (List.mem_cons_of_mem e he'))

lemma addEdge_cons_ne (e : Pt × List Pt) (rest : HullGraph) (a b : Pt)
    (h : e.1 ≠ a) : addEdge (e :: rest) a b = e :: addEdge rest a b := by
  unfold addEdge
  rw [List.find?_cons_of_neg _ (by simp [h])]
  by_cases hc : ((rest.find? (fun x => x.1 == a)).isSome : Prop)
  · rw [if_pos hc, if_pos hc, List.map_cons, if_neg h]
  · rw [if_neg hc, if_neg hc]
    rfl

lemma map_addfn_id (a b : Pt) : ∀ (g : HullGraph), (∀ e ∈ g, e.1 ≠ a) →
    g.map (fun e => if e.1 = a then (e.1, e.2 ++ [b]) else e) = g := by
  intro g
  induction g with
  | nil => intro _; rfl
  | cons e rest ih =>
      intro h
      rw [List.map_cons, if_neg (h e (List.mem_cons_self e rest)),
        ih (fun e' he' => h e' (List.mem_cons_of_mem e he'))]

lemma nodup_keys_cons {e : Pt × List Pt} {rest : HullGraph}
    (h : ((e :: rest).map Prod.fst).Nodup) :
    (∀ e' ∈ rest, e'.1 ≠ e.1) ∧ (rest.map Prod.fst).Nodup := by
  rw [List.map_cons, List.nodup_cons] at h
  refine ⟨?_, h.2⟩
  intro e' he' hcon
  exact h.1 (List.mem_map.mpr ⟨e', he', hcon⟩)

lemma outsOf_addEdge (a b x : Pt) : ∀ (g : HullGraph),
    (g.map Prod.fst).Nodup →
    outsOf (addEdge g a b) x = if x = a then outsOf g a ++ [b] else outsOf g x := by
  intro g
  induction g with
  | nil =>
      intro _
      have h1 : addEdge [] a b = [(a, [b])] := by
        unfold addEdge
        simp [List.find?]
      rw [h1, outsOf_cons]
      by_cases hxa : x = a
      · rw [if_pos hxa.symm, if_pos hxa]
        rfl
      · rw [if_neg (fun hcon => hxa hcon.symm), if_neg hxa]
  | cons e rest ih =>
      intro hnd
      rcases nodup_keys_cons hnd with ⟨hrest, hndrest⟩
      by_cases hea : e.1 = a
      · have h1 : addEdge (e :: rest) a b = (e.1, e.2 ++ [b]) :: rest := by
          unfold addEdge
          rw [List.find?_cons_of_pos _ (by simp [hea]), if_pos (by rfl), List.map_cons,
            if_pos hea, map_addfn_id a b rest (fun e' he' hcon =>
              hrest e' he' (hcon.trans hea.symm))]
        rw [h1]
        by_cases hxa : x = a
        · rw [if_pos hxa, outsOf_cons, outsOf_cons, if_pos (hea.trans hxa.symm),
            if_pos hea]
        · rw [if_neg hxa, outsOf_cons, outsOf_cons,
            if_neg (fun hcon => hxa (hcon.symm.trans hea)),
            if_neg (fun hcon => hxa (hcon.symm.trans hea))]
      · rw [addEdge_cons_ne e rest a b hea]
        by_cases hxa : x = a
        · subst hxa
          rw [if_pos rfl, outsOf_cons, outsOf_cons, if_neg hea, if_neg hea,
            ih hndrest, if_pos rfl]
        · rw [if_neg hxa, outsOf_cons, outsOf_cons]
          by_cases hex : e.1 = x
          · rw [if_pos hex, if_pos hex]
          · rw [if_neg hex, if_neg hex, ih hndrest, if_neg hxa]

lemma deleteEdge_cons_ne (e : Pt × List Pt) (rest : HullGraph) (a b : Pt)
    (h : e.1 ≠ a) : deleteEdge (e :: rest) a b = e :: deleteEdge rest a b := by
  unfold deleteEdge
  rw [List.filterMap_cons]
  rw [if_neg h]

lemma deleteEdge_cons_eq (e : Pt × List Pt) (rest : HullGraph) (a b : Pt)
    (h : e.1 = a) :
    deleteEdge (e :: rest) a b =
      (if (e.2.erase b).isEmpty then [] else [(a, e.2.erase b)]) ++ deleteEdge rest a b := by
  unfold deleteEdge
  rw [List.filterMap_cons, if_pos h]
  by_cases hemp : ((e.2.erase b).isEmpty : Prop)
  · rw [if_pos hemp, if_pos hemp]
    rfl
  · rw [if_neg hemp, if_neg hemp]
    rfl

lemma deleteEdge_id (a b : Pt) : ∀ (g : HullGraph), (∀ e ∈ g, e.1 ≠ a) →
    deleteEdge g a b = g := by
  intro g
  induction g with
  | nil => intro _; rfl
  | cons e rest ih =>
      intro h
      rw [deleteEdge_cons_ne e rest a b (h e (List.mem_cons_self e rest)),
        ih (fun e' he' => h e' (List.mem_cons_of_mem e he'))]

lemma outsOf_deleteEdge (a b x : Pt) : ∀ (g : HullGraph),
    (g.map Prod.fst).Nodup →
    outsOf (deleteEdge g a b) x =
      if x = a then (outsOf g a).erase b else outsOf g x := by
  intro g
  induction g with
  | nil =>
      intro _
      by_cases hxa : x = a
      · rw [if_pos hxa]
        rfl
      · rw [if_neg hxa]
        rfl
  | cons e rest ih =>
      intro hnd
      rcases nodup_keys_cons hnd with ⟨hrest, hndrest⟩
      by_cases hea : e.1 = a
      · have hnoa : ∀ e' ∈ rest, e'.1 ≠ a := fun e' he' hcon =>
          hrest e' he' (hcon.trans hea.symm)
        rw [deleteEdge_cons_eq e rest a b hea, deleteEdge_id a b rest hnoa]
        by_cases hemp : ((e.2.erase b).isEmpty : Prop)
        · rw [if_pos hemp, List.nil_append]
          by_cases hxa : x = a
          · rw [if_pos hxa, outsOf_cons, if_pos hea, hxa, outsOf_no_key rest a hnoa]
            exact (List.isEmpty_iff.mp hemp).symm
          · rw [if_neg hxa, outsOf_cons,
              if_neg (fun hcon => hxa (hcon.symm.trans hea))]
        · rw [if_neg hemp, List.singleton_append]
          by_cases hxa : x = a
          · rw [if_pos hxa, outsOf_cons, outsOf_cons, if_pos hxa.symm, if_pos hea]
          · rw [if_neg hxa, outsOf_cons, outsOf_cons,
              if_neg (fun hcon => hxa hcon.symm),
              if_neg (fun hcon => hxa (hcon.symm.trans hea))]
      · rw [deleteEdge_cons_ne e rest a b hea]
        by_cases hxa : x = a
        · subst hxa
          rw [if_pos rfl, outsOf_cons, outsOf_cons, if_neg hea, if_neg hea,
            ih hndrest, if_pos rfl]
        · rw [if_neg hxa, outsOf_cons, outsOf_cons]
          by_cases hex : e.1 = x
          · rw [if_pos hex, if_pos hex]
          · rw [if_neg hex, if_neg hex, ih hndrest, if_neg hxa]

lemma memEdge_iff {g : HullGraph} {x y : Pt} : memEdge g x y = true ↔ y ∈ outsOf g x := by
  unfold memEdge
  exact List.elem_iff

lemma memEdge_false_iff {g : HullGraph} {x y : Pt} :
    memEdge g x y = false ↔ y ∉ outsOf g x := by
  rw [← Bool.not_eq_true, not_iff_not]
  exact memEdge_iff

lemma outsOf_nodup {g : HullGraph} (hWF : WFgraph g) (x : Pt) : (outsOf g x).Nodup := by
  unfold outsOf
  cases hf : g.find? (fun e => e.1 == x) with
  | none => exact List.nodup_nil
  | some e => exact hWF.2 e (List.mem_of_find?_eq_some hf)

lemma memEdge_addEdge_self (g : HullGraph) (hnd : (g.map Prod.fst).Nodup) (a b : Pt) :
    memEdge (addEdge g a b) a b = true := by
  rw [memEdge_iff, outsOf_addEdge a b a g hnd, if_pos rfl]
  exact List.mem_append_right _ (List.mem_singleton.mpr rfl)

lemma memEdge_addEdge_other (g : HullGraph) (hnd : (g.map Prod.fst).Nodup)
    (a b x y : Pt) (h : ¬ (x = a ∧ y = b)) :
    memEdge (addEdge g a b) x y = memEdge g x y := by
  rw [Bool.eq_iff_iff, memEdge_iff, memEdge_iff, outsOf_addEdge a b x g hnd]
  by_cases hxa : x = a
  · rw [if_pos hxa, hxa]
    have hyb : y ≠ b := fun hcon => h ⟨hxa, hcon⟩
    rw [List.mem_append]
    simp [hyb]
  · rw [if_neg hxa]

lemma memEdge_deleteEdge_self (g : HullGraph) (hWF : WFgraph g) (a b : Pt) :
    memEdge (deleteEdge g a b) a b = false := by
  rw [memEdge_false_iff, outsOf_deleteEdge a b a g hWF.1, if_pos rfl]
  exact (outsOf_nodup hWF a).not_mem_erase

lemma memEdge_deleteEdge_other (g : HullGraph) (hnd : (g.map Prod.fst).Nodup)
    (a b x y : Pt) (h : ¬ (x = a ∧ y = b)) :
    memEdge (deleteEdge g a b) x y = memEdge g x y := by
  rw [Bool.eq_iff_iff, memEdge_iff, memEdge_iff, outsOf_deleteEdge a b x g hnd]
  by_cases hxa : x = a
  · rw [if_pos hxa, hxa]
    have hyb : y ≠ b := fun hcon => h ⟨hxa, hcon⟩
    exact List.mem_erase_of_ne hyb
  · rw [if_neg hxa]

lemma keys_deleteEdge_sublist (a b : Pt) : ∀ (g : HullGraph),
    ((deleteEdge g a b).map Prod.fst).Sublist (g.map Prod.fst) := by
  intro g
  induction g with
  | nil => exact List.Sublist.refl _
  | cons e rest ih =>
      by_cases hea : e.1 = a
      · rw [deleteEdge_cons_eq e rest a b hea]
        by_cases hemp : ((e.2.erase b).isEmpty : Prop)
        · rw [if_pos hemp, List.nil_append]
          exact ih.trans (List.sublist_cons_self _ _)
        · rw [if_neg hemp, List.singleton_append, List.map_cons, List.map_cons]
          have : (a, e.2.erase b).1 = e.1 := by rw [hea]
          rw [this]
          exact ih.cons₂ e.1
      · rw [deleteEdge_cons_ne e rest a b hea, List.map_cons, List.map_cons]
        exact ih.cons₂ e.1

lemma mem_deleteEdge {g : HullGraph} {a b : Pt} {e' : Pt × List Pt}
    (h : e' ∈ deleteEdge g a b) :
    e' ∈ g ∨ ∃ e ∈ g, e'.2 = e.2.erase b := by
  unfold deleteEdge at h
  rcases List.mem_filterMap.mp h with ⟨e, hmem, hf⟩
  by_cases hea : e.1 = a
  · rw [if_pos hea] at hf
    by_cases hemp : ((e.2.erase b).isEmpty : Prop)
    · rw [if_pos hemp] at hf
      cases hf
    · rw [if_neg hemp] at hf
      cases hf
      exact Or.inr ⟨e, hmem, rfl⟩
  · rw [if_neg hea] at hf
    cases hf
    exact Or.inl hmem

lemma WF_deleteEdge {g : HullGraph} (hWF : WFgraph g) (a b : Pt) :
    WFgraph (deleteEdge g a b) := by
  constructor
  · exact (keys_deleteEdge_sublist a b g).nodup hWF.1
  · intro e' he'
    rcases mem_deleteEdge he' with h | ⟨e, hmem, heq⟩
    · exact hWF.2 e' h
    · rw [heq]
      exact (hWF.2 e hmem).erase b

lemma outsOf_eq_of_mem : ∀ (g : HullGraph), (g.map Prod.fst).Nodup →
    ∀ e ∈ g, outsOf g e.1 = e.2 := by
  intro g
  induction g with
  | nil => intro _ e he; cases he
  | cons e0 rest ih =>
      intro hnd e he
      rcases nodup_keys_cons hnd with ⟨hrest, hndrest⟩
      rcases List.mem_cons.mp he with h | h
      · rw [h, outsOf_cons, if_pos rfl]
      · rw [outsOf_cons, if_neg (fun hcon => hrest e h hcon.symm), ih hndrest e h]

lemma keys_addEdge_map_branch (a b : Pt) : ∀ (g : HullGraph),
    (g.map (fun e => if e.1 = a then (e.1, e.2 ++ [b]) else e)).map Prod.fst
      = g.map Prod.fst := by
  intro g
  induction g with
  | nil => rfl
  | cons e rest ih =>
      rw [List.map_cons, List.map_cons, List.map_cons, ih]
      by_cases hea : e.1 = a
      · rw [if_pos hea]
      · rw [if_neg hea]

lemma WF_addEdge {g : HullGraph} (hWF : WFgraph g) (a b : Pt)
    (hnm : memEdge g a b = false) : WFgraph (addEdge g a b) := by
  unfold addEdge
  by_cases hfind : ((g.find? (fun e => e.1 == a)).isSome : Prop)
  · rw [if_pos hfind]
    constructor
    · rw [keys_addEdge_map_branch]
      exact hWF.1
    · intro e' he'
      rcases List.mem_map.mp he' with ⟨e, hmem, heq⟩
      by_cases hea : e.1 = a
      · rw [if_pos hea] at heq
        rw [← heq]
        have houts : outsOf g e.1 = e.2 := outsOf_eq_of_mem g hWF.1 e hmem
        have hb : b ∉ e.2 := by
          have h2 : memEdge g e.1 b = false := by rw [hea]; exact hnm
          have h3 := memEdge_false_iff.mp h2
          rw [houts] at h3
          exact h3
        show (e.2 ++ [b]).Nodup
        rw [List.nodup_append]
        exact ⟨hWF.2 e hmem, List.nodup_singleton b,
          by intro z hz hz2; rw [List.mem_singleton.mp hz2] at hz; exact hb hz⟩
      · rw [if_neg hea] at heq
        rw [← heq]
        exact hWF.2 e hmem
  · rw [if_neg hfind]
    have hnotkey : ∀ e ∈ g, e.1 ≠ a := by
      intro e he hcon
      rw [Option.not_isSome_iff_eq_none] at hfind
      have := List.find?_eq_none.mp hfind e he
      simp [hcon] at this
    constructor
    · rw [List.map_append]
      rw [List.nodup_append]
      refine ⟨hWF.1, by simp, ?_⟩
      intro z hz hz2
      simp only [List.map_cons, List.map_nil, List.mem_singleton] at hz2
      rcases List.mem_map.mp hz with ⟨e, hmem, heq⟩
      exact hnotkey e hmem (heq.trans hz2)
    · intro e' he'
      rcases List.mem_append.mp he' with h | h
      · exact hWF.2 e' h
      · rw [List.mem_singleton.mp h]
        exact List.nodup_singleton b

lemma mem_graphPts_cons {p : Pt} {e : Pt × List Pt} {rest : HullGraph} :
    p ∈ graphPts (e :: rest) ↔ p = e.1 ∨ p ∈ e.2 ∨ p ∈ graphPts rest := by
  show p ∈ e.1 :: (e.2 ++ graphPts rest) ↔ _
  rw [List.mem_cons, List.mem_append]

lemma graphPts_addEdge_subset (a b : Pt) : ∀ (g : HullGraph),
    (g.map Prod.fst).Nodup →
    ∀ p ∈ graphPts (addEdge g a b), p = a ∨ p = b ∨ p ∈ graphPts g := by
  intro g
  induction g with
  | nil =>
      intro _ p hp
      have h1 : addEdge [] a b = [(a, [b])] := by
        unfold addEdge
        simp [List.find?]
      rw [h1] at hp
      rcases mem_graphPts_cons.mp hp with h | h | h
      · exact Or.inl h
      · exact Or.inr (Or.inl (List.mem_singleton.mp h))
      · cases h
  | cons e rest ih =>
      intro hnd p hp
      rcases nodup_keys_cons hnd with ⟨hrest, hndrest⟩
      by_cases hea : e.1 = a
      · have h1 : addEdge (e :: rest) a b = (e.1, e.2 ++ [b]) :: rest := by
          unfold addEdge
          rw [List.find?_cons_of_pos _ (by simp [hea]), if_pos (by rfl), List.map_cons,
            if_pos hea, map_addfn_id a b rest (fun e' he' hcon =>
              hrest e' he' (hcon.trans hea.symm))]
        rw [h1] at hp
        rcases mem_graphPts_cons.mp hp with h | h | h
        · exact Or.inr (Or.inr (mem_graphPts_cons.mpr (Or.inl h)))
        · rcases List.mem_append.mp h with h2 | h2
          · exact Or.inr (Or.inr (mem_graphPts_cons.mpr (Or.inr (Or.inl h2))))
          · exact Or.inr (Or.inl (List.mem_singleton.mp h2))
        · exact Or.inr (Or.inr (mem_graphPts_cons.mpr (Or.inr (Or.inr h))))
      · rw [addEdge_cons_ne e rest a b hea] at hp
        rcases mem_graphPts_cons.mp hp with h | h | h
        · exact Or.inr (Or.inr (mem_graphPts_cons.mpr (Or.inl h)))
        · exact Or.inr (Or.inr (mem_graphPts_cons.mpr (Or.inr (Or.inl h))))
        · rcases ih hndrest p h with h2 | h2 | h2
          · exact Or.inl h2
          · exact Or.inr (Or.inl h2)
          · exact Or.inr (Or.inr (mem_graphPts_cons.mpr (Or.inr (Or.inr h2))))

lemma snapInner_id (tol : ℚ) (a b : Pt) : ∀ (outs : List Pt),
    (∀ p ∈ outs, p ≠ a → p ≠ b → nearTol tol p a = false ∧ nearTol tol p b = false) →
    snapInner tol outs (a, b) = (a, b) := by
  intro outs
  induction outs with
  | nil => intro _; rfl
  | cons p2 rest ih =>
      intro h
      unfold snapInner
      by_cases hc : ((a, b).1 = p2 ∨ (a, b).2 = p2)
      · rw [if_pos hc]
      · rw [if_neg hc]
        push_neg at hc
        have hpa : p2 ≠ a := fun hcon => hc.1 hcon.symm
        have hpb : p2 ≠ b := fun hcon => hc.2 hcon.symm
        rcases h p2 (List.mem_cons_self p2 rest) hpa hpb with ⟨h1, h2⟩
        rw [h1, h2]
        simp only [if_false, Bool.false_eq_true]
        exact ih (fun p hp => h p (List.mem_cons_of_mem p2 hp))

lemma snapSeg_id (tol : ℚ) (a b : Pt) : ∀ (g : HullGraph),
    (∀ p ∈ graphPts g, p ≠ a → p ≠ b →
      nearTol tol p a = false ∧ nearTol tol p b = false) →
    snapSeg tol g (a, b) = (a, b) := by
  have haux : ∀ (g : HullGraph),
      (∀ p ∈ graphPts g, p ≠ a → p ≠ b →
        nearTol tol p a = false ∧ nearTol tol p b = false) →
      List.foldl (fun sg e =>
        snapInner tol e.2
          (if sg.1 ≠ e.1 ∧ sg.2 ≠ e.1 then
            (if nearTol tol e.1 sg.1 then e.1 else sg.1,
             if nearTol tol e.1 sg.2 then e.1 else sg.2)
          else sg)) (a, b) g = (a, b) := by
    intro g
    induction g with
    | nil => intro _; rfl
    | cons e rest ih =>
        intro h
        rw [List.foldl_cons]
        have hstep : snapInner tol e.2
            (if (a, b).1 ≠ e.1 ∧ (a, b).2 ≠ e.1 then
              (if nearTol tol e.1 (a, b).1 then e.1 else (a, b).1,
               if nearTol tol e.1 (a, b).2 then e.1 else (a, b).2)
            else (a, b)) = (a, b) := by
          have houter : (if (a, b).1 ≠ e.1 ∧ (a, b).2 ≠ e.1 then
              (if nearTol tol e.1 (a, b).1 then e.1 else (a, b).1,
               if nearTol tol e.1 (a, b).2 then e.1 else (a, b).2)
            else (a, b)) = (a, b) := by
            by_cases hg : ((a, b).1 ≠ e.1 ∧ (a, b).2 ≠ e.1)
            · rw [if_pos hg]
              have hk : e.1 ∈ graphPts (e :: rest) := mem_graphPts_cons.mpr (Or.inl rfl)
              rcases h e.1 hk (fun hcon => hg.1 hcon.symm) (fun hcon => hg.2 hcon.symm)
                with ⟨h1, h2⟩
              rw [h1, h2]
              simp only [if_false, Bool.false_eq_true]
            · rw [if_neg hg]
          rw [houter]
          exact snapInner_id tol a b e.2 (fun p hp =>
            h p (mem_graphPts_cons.mpr (Or.inr (Or.inl hp))))
        rw [hstep]
        exact ih (fun p hp => h p (mem_graphPts_cons.mpr (Or.inr (Or.inr hp))))
  intro g h
  exact haux g h

lemma outsOf_addEdge_self (a b : Pt) : ∀ (g : HullGraph),
    outsOf (addEdge g a b) a = outsOf g a ++ [b] := by
  intro g
  induction g with
  | nil =>
      have h1 : addEdge [] a b = [(a, [b])] := by
        unfold addEdge
        simp [List.find?]
      rw [h1, outsOf_cons, if_pos rfl]
      rfl
  | cons e rest ih =>
      by_cases hea : e.1 = a
      · have h1 : addEdge (e :: rest) a b
            = (e.1, e.2 ++ [b]) :: rest.map (fun x => if x.1 = a then (x.1, x.2 ++ [b]) else x) := by
          unfold addEdge
          rw [List.find?_cons_of_pos _ (by simp [hea]), if_pos (by rfl), List.map_cons,
            if_pos hea]
        rw [h1, outsOf_cons, if_pos hea, outsOf_cons, if_pos hea]
      · rw [addEdge_cons_ne e rest a b hea, outsOf_cons, if_neg hea, outsOf_cons,
          if_neg hea, ih]

lemma memEdge_addEdge_self' (g : HullGraph) (a b : Pt) :
    memEdge (addEdge g a b) a b = true := by
  rw [memEdge_iff, outsOf_addEdge_self a b g]
  exact List.mem_append_right _ (List.mem_singleton.mpr rfl)

lemma addToGraph_eq (tol : ℚ) (g : HullGraph) (a b : Pt) (hab : a ≠ b)
    (hsnap : snapSeg tol g (a, b) = (a, b)) :
    addToGraph tol g (a, b) =
      if memEdge g b a = true then deleteEdge g b a
      else if memEdge g a b = true then deleteEdge g a b
      else addEdge g a b := by
  unfold addToGraph
  rw [if_neg (show ¬ ((a, b).1 = (a, b).2) from hab)]
  dsimp only
  rw [hsnap]

/-- C6, counterexample.  With tolerance 1, the graph holding the reverse
edge (5,0) -> (0,0) and an unrelated point (1/2,0) near (0,0): inserting
the edge (0,0) -> (5,0) snaps its start to (1/2,0), so instead of
cancelling the reverse edge it leaves it in place (and adds
(1/2,0) -> (5,0)). -/
theorem C6_counterexample :
    ((0 : ℚ), (0 : ℚ)) ≠ ((5 : ℚ), (0 : ℚ)) ∧
    memEdge [(((5 : ℚ), (0 : ℚ)), [((0 : ℚ), (0 : ℚ))]),
             (((1/2 : ℚ), (0 : ℚ)), [((9 : ℚ), (9 : ℚ))])] (5, 0) (0, 0) = true ∧
    memEdge (addToGraph 1
      [(((5 : ℚ), (0 : ℚ)), [((0 : ℚ), (0 : ℚ))]),
       (((1/2 : ℚ), (0 : ℚ)), [((9 : ℚ), (9 : ℚ))])]
      ((0, 0), (5, 0))) (5, 0) (0, 0) = true := by
  refine ⟨by with_unfolding_all decide, by with_unfolding_all rfl,
    by with_unfolding_all rfl⟩

/-- C6, amended.  For a well-formed graph and an edge (a,b) with a and b
not within tolerance of any other graph point (so that snapping leaves
the edge unchanged; the counterexample shows the claim fails otherwise):
inserting when the reverse edge exists removes it and changes nothing
else; else inserting when the same edge exists removes it and changes
nothing else; else the edge is added and nothing else changes; and
inserting the same edge twice, or the edge and then its reverse, leaves
the graph without that edge in either direction. -/
theorem C6_edge_cancellation (tol : ℚ) (g : HullGraph) (a b : Pt)
    (hab : a ≠ b) (hWF : WFgraph g)
    (hfar : ∀ p ∈ graphPts g, p ≠ a → p ≠ b →
      nearTol tol p a = false ∧ nearTol tol p b = false) :
    (memEdge g b a = true →
      memEdge (addToGraph tol g (a, b)) b a = false ∧
      ∀ x y : Pt, ¬ (x = b ∧ y = a) →
        memEdge (addToGraph tol g (a, b)) x y = memEdge g x y) ∧
    (memEdge g b a = false → memEdge g a b = true →
      memEdge (addToGraph tol g (a, b)) a b = false ∧
      ∀ x y : Pt, ¬ (x = a ∧ y = b) →
        memEdge (addToGraph tol g (a, b)) x y = memEdge g x y) ∧
    (memEdge g b a = false → memEdge g a b = false →
      memEdge (addToGraph tol g (a, b)) a b = true ∧
      ∀ x y : Pt, ¬ (x = a ∧ y = b) →
        memEdge (addToGraph tol g (a, b)) x y = memEdge g x y) ∧
    (memEdge g b a = false → memEdge g a b = false →
      memEdge (addToGraph tol (addToGraph tol g (a, b)) (a, b)) a b = false ∧
      memEdge (addToGraph tol (addToGraph tol g (a, b)) (b, a)) a b = false ∧
      memEdge (addToGraph tol (addToGraph tol g (a, b)) (b, a)) b a = false) := by
  have hsnap : snapSeg tol g (a, b) = (a, b) := snapSeg_id tol a b g hfar
  have hrw := addToGraph_eq tol g a b hab hsnap
  refine ⟨?_, ?_, ?_, ?_⟩
  · intro h1
    rw [hrw, if_pos h1]
    exact ⟨memEdge_deleteEdge_self g hWF b a,
      fun x y hxy => memEdge_deleteEdge_other g hWF.1 b a x y hxy⟩
  · intro h1 h2
    rw [hrw, h1, if_neg (by simp), if_pos h2]
    exact ⟨memEdge_deleteEdge_self g hWF a b,
      fun x y hxy => memEdge_deleteEdge_other g hWF.1 a b x y hxy⟩
  · intro h1 h2
    rw [hrw, h1, h2, if_neg (by simp), if_neg (by simp)]
    exact ⟨memEdge_addEdge_self' g a b,
      fun x y hxy => memEdge_addEdge_other g hWF.1 a b x y hxy⟩
  · intro h1 h2
    have hg1 : addToGraph tol g (a, b) = addEdge g a b := by
      rw [hrw, h1, h2, if_neg (by simp), if_neg (by simp)]
    have hWF' : WFgraph (addEdge g a b) := WF_addEdge hWF a b h2
    have hpts' : ∀ p ∈ graphPts (addEdge g a b), p ≠ a → p ≠ b →
        nearTol tol p a = false ∧ nearTol tol p b = false := by
      intro p hp hpa hpb
      rcases graphPts_addEdge_subset a b g hWF.1 p hp with h | h | h
      · exact absurd h hpa
      · exact absurd h hpb
      · exact hfar p h hpa hpb
    have hsnap2 : snapSeg tol (addEdge g a b) (a, b) = (a, b) :=
      snapSeg_id tol a b _ hpts'
    have hsnap3 : snapSeg tol (addEdge g a b) (b, a) = (b, a) :=
      snapSeg_id tol b a _ (fun p hp hpb hpa =>
        ⟨(hpts' p hp hpa hpb).2, (hpts' p hp hpa hpb).1⟩)
    have hg'ab : memEdge (addEdge g a b) a b = true := memEdge_addEdge_self' g a b
    have hg'ba : memEdge (addEdge g a b) b a = false := by
      rw [memEdge_addEdge_other g hWF.1 a b b a (fun hc => hab hc.1.symm)]
      exact h1
    refine ⟨?_, ?_, ?_⟩
    · rw [hg1, addToGraph_eq tol _ a b hab hsnap2, hg'ba, if_neg (by simp),
        if_pos hg'ab]
      exact memEdge_deleteEdge_self _ hWF' a b
    · rw [hg1, addToGraph_eq tol _ b a (fun hcon => hab hcon.symm) hsnap3,
        if_pos hg'ab]
      exact memEdge_deleteEdge_self _ hWF' a b
    · rw [hg1, addToGraph_eq tol _ b a (fun hcon => hab hcon.symm) hsnap3,
        if_pos hg'ab, memEdge_deleteEdge_other _ hWF'.1 a b b a
          (fun hc => hab hc.1.symm)]
      exact hg'ba

/-- Witness for C6_edge_cancellation: with tolerance 0 nothing snaps, and
inserting (0,0) -> (5,0) over its reverse edge cancels that reverse
edge. -/
theorem C6_edge_cancellation_witness :
    memEdge [(((5 : ℚ), (0 : ℚ)), [((0 : ℚ), (0 : ℚ))])] (5, 0) (0, 0) = true ∧
    memEdge (addToGraph 0 [(((5 : ℚ), (0 : ℚ)), [((0 : ℚ), (0 : ℚ))])]
      ((0, 0), (5, 0))) (5, 0) (0, 0) = false := by
  have h := C6_edge_cancellation 0 [(((5 : ℚ), (0 : ℚ)), [((0 : ℚ), (0 : ℚ))])]
    (0, 0) (5, 0) (by with_unfolding_all decide)
    (by unfold WFgraph; with_unfolding_all decide)
    (by with_unfolding_all decide)
  exact ⟨by with_unfolding_all rfl, (h.1 (by with_unfolding_all rfl)).1⟩

/-- C8, counterexample.  The self-equality check of addToGraph runs
before snapping: a segment whose two distinct endpoints both snap to the
existing point (0,0) (tolerance 1/10) is not discarded but inserted as
the self-loop (0,0) -> (0,0). -/
theorem C8_counterexample :
    (((0 : ℚ), (1/20 : ℚ)), ((1/20 : ℚ), (0 : ℚ))).1
      ≠ (((0 : ℚ), (1/20 : ℚ)), ((1/20 : ℚ), (0 : ℚ))).2 ∧
    snapSeg (1/10) (addToGraph (1/10) [] ((0, 0), (5, 0)))
      (((0 : ℚ), (1/20 : ℚ)), ((1/20 : ℚ), (0 : ℚ))) = ((0, 0), (0, 0)) ∧
    memEdge (addToGraph (1/10) (addToGraph (1/10) [] ((0, 0), (5, 0)))
      (((0 : ℚ), (1/20 : ℚ)), ((1/20 : ℚ), (0 : ℚ)))) (0, 0) (0, 0) = true := by
  refine ⟨by with_unfolding_all decide, by with_unfolding_all rfl,
    by with_unfolding_all rfl⟩

/-- C8, amended.  Endpoint snapping against the existing graph points is
applied as claimed, but the self-edge check happens before snapping: a
segment whose endpoints are equal on arrival is discarded, while a
segment whose endpoints become equal only through snapping is not
discarded — when no identical self-loop is present to cancel, it is
inserted into the graph as a self-loop. -/
theorem C8_selfloop (tol : ℚ) (g : HullGraph) (s e : Pt) :
    (s = e → addToGraph tol g (s, e) = g) ∧
    (s ≠ e → ∀ s' e' : Pt, snapSeg tol g (s, e) = (s', e') → s' = e' →
      memEdge g s' s' = false →
      memEdge (addToGraph tol g (s, e)) s' s' = true) := by
  constructor
  · intro hse
    unfold addToGraph
    rw [if_pos (show (s, e).1 = (s, e).2 from hse)]
  · intro hne s' e' hsnap heq hmem
    unfold addToGraph
    rw [if_neg (show ¬ ((s, e).1 = (s, e).2) from hne)]
    dsimp only
    rw [hsnap]
    subst heq
    dsimp only
    rw [hmem]
    simp only [Bool.false_eq_true, if_false]
    exact memEdge_addEdge_self' g s' s'

/-- Witness for C8_selfloop at the concrete snapping scenario of the
counterexample. -/
theorem C8_selfloop_witness :
    (((0 : ℚ), (1/20 : ℚ)) ≠ ((1/20 : ℚ), (0 : ℚ))) ∧
    memEdge (addToGraph (1/10) (addToGraph (1/10) [] ((0, 0), (5, 0)))
      (((0 : ℚ), (1/20 : ℚ)), ((1/20 : ℚ), (0 : ℚ)))) (0, 0) (0, 0) = true := by
  have h := (C8_selfloop (1/10) (addToGraph (1/10) [] ((0, 0), (5, 0)))
    ((0 : ℚ), (1/20 : ℚ)) ((1/20 : ℚ), (0 : ℚ))).2
    (by with_unfolding_all decide) (0, 0) (0, 0)
    (by with_unfolding_all rfl) rfl (by with_unfolding_all rfl)
  exact ⟨by with_unfolding_all decide, h⟩

/-- The four unit squares of the concrete hull scenario (hull test): the
third listed square carries the vertex (1, 1.01) offset by 0.01. -/
def sqPolys : List (List (List Pt)) :=
  [[[(0, 0), (1, 0), (1, 1), (0, 1)]],
   [[(1, 0), (2, 0), (2, 1), (1, 101/100)]],
   [[(1, 1), (2, 1), (2, 2), (1, 2)]],
   [[(0, 1), (1, 1), (1, 2), (0, 2)]]]

/-- The ring the hull merge actually produces for sqPolys: the outer
square boundary including the four collinear mid-edge vertices. -/
def octRing : List Pt :=
  [(0, 0), (1, 0), (2, 0), (2, 1), (2, 2), (1, 2), (0, 2), (0, 1), (0, 0)]

/-- C9, counterexample.  The hull merge of the four-squares scenario with
tolerance 1/10 yields a single closed ring that contains the collinear
vertex (1,0), which is not among the four vertices of the claimed ring
(0,0),(2,0),(2,2),(0,2); the ring has eight distinct vertices, not
four. -/
theorem C9_counterexample :
    newHull (1/10) sqPolys = some [octRing] ∧
    ((1 : ℚ), (0 : ℚ)) ∈ octRing ∧
    ((1 : ℚ), (0 : ℚ)) ∉ ([(0, 0), (2, 0), (2, 2), (0, 2)] : List Pt) := by
  refine ⟨by with_unfolding_all rfl, by with_unfolding_all decide,
    by with_unfolding_all decide⟩

/-- C9, amended.  Merging the four unit squares (third square's vertex
(1,1.01) snapped to (1,1) by tolerance 1/10) produces exactly one closed
ring: the outer square boundary
(0,0),(1,0),(2,0),(2,1),(2,2),(1,2),(0,2),(0,1) — the four corners plus
the four collinear mid-edge vertices — with the shared inner edges
cancelled and the offset vertex eliminated.  (The starting vertex of the
walk depends on Go's randomized map order; the model fixes insertion
order, which starts the walk at (0,0).) -/
theorem C9_four_squares : newHull (1/10) sqPolys = some [octRing] := by
  with_unfolding_all rfl

/-- Witness for C2_hex_bounds at a concrete hexagon with r = 1. -/
theorem C2_hex_bounds_witness :
    (0 : ℚ) ≤ 1 ∧
    ((hexBounds { px := ⟨0, 0⟩, py := ⟨0, 0⟩, data := [], idx := 0, r := 1 }).minX.toReal
      ≤ hexVertexX { px := ⟨0, 0⟩, py := ⟨0, 0⟩, data := [], idx := 0, r := 1 } 2) :=
  ⟨by norm_num,
    ((C2_hex_bounds { px := ⟨0, 0⟩, py := ⟨0, 0⟩, data := [], idx := 0, r := 1 }).2.2.2.2.2.2.2.2
      (by norm_num) 2 (by norm_num)).1⟩

end Tilegram
